import Mathlib

/-! Certificate chain loading of the Boulder web front end (cmd/boulder-wfe2).

A shallow embedding of `loadCertificateFile`, `loadCertificateChains`, the
chain-set merge at the start of `main`, `errorWriter.Write`, the start of the
two listeners and the shutdown at the end of `main`
(src/cmd/boulder-wfe2/main.go), of `FeatureFlag.String`
(src/features/featureflag_string.go), and of the library routines they call:
the `bytes` helpers, `encoding/base64` and `encoding/pem` of the Go standard
library.

Conventions.
* A `[]byte` is a list of natural numbers (`Bytes`); the nil slice is `[]`.
* A pointer is an `Option`; a Go `error` is an `Option` of an error value.
* A Go map is the list of its entries, in the order `range` visits them; the
  order in which `range` visits a map built by the program is a parameter.
* `ioutil.ReadFile`, `x509.ParseCertificate` and `features.Set` are parameters
  (`World`); `cmd.Fail` and `cmd.FailOnError` end the process.
* The shutdown is a step relation on the states of two threads; a run is the
  sequence of steps a schedule picks.
-/

namespace Boulder

/-- Byte slices. -/
abbrev Bytes := List Nat

/-- The bytes of an ASCII string constant. -/
def ascii (s : String) : Bytes := s.toList.map Char.toNat

/-! ## Package bytes -/

namespace bytes

/-- Go bytes.HasPrefix. -/
def HasPrefix (s pre : Bytes) : Bool := pre.isPrefixOf s

/-- Go bytes.HasSuffix. -/
def HasSuffix (s suf : Bytes) : Bool := suf.reverse.isPrefixOf s.reverse

/-- First position at or after offset `i` (the position of the head of `s`)
where `sep` occurs. -/
def indexFrom (sep : Bytes) : Bytes → Nat → Option Nat
  | [], i => if sep.isPrefixOf [] then some i else none
  | b :: s, i => if sep.isPrefixOf (b :: s) then some i else indexFrom sep s (i + 1)

/-- Go bytes.Index: the index of the first instance of `sep` in `s`
(`none` for Go's -1). -/
def Index (s sep : Bytes) : Option Nat := indexFrom sep s 0

/-- Go bytes.IndexByte. -/
def IndexByte (s : Bytes) (c : Nat) : Option Nat := indexFrom [c] s 0

/-- Go bytes.Contains. -/
def Contains (b subslice : Bytes) : Bool := (Index b subslice).isSome

/-- Go bytes.Cut: the text before and after the first instance of `sep`. -/
def Cut (s sep : Bytes) : Option (Bytes × Bytes) :=
  match Index s sep with
  | some i => some (s.take i, s.drop (i + sep.length))
  | none => none

/-- Go bytes.TrimRight for a cutset of ASCII bytes. -/
def TrimRight (s cutset : Bytes) : Bytes :=
  (s.reverse.dropWhile (fun b => cutset.contains b)).reverse

end bytes

/-! ## Package encoding/base64 (StdEncoding) -/

namespace base64

/-- Value of a character of the standard alphabet, `none` for any other byte. -/
def decodeMap (c : Nat) : Option Nat :=
  if 65 ≤ c ∧ c ≤ 90 then some (c - 65)
  else if 97 ≤ c ∧ c ≤ 122 then some (c - 71)
  else if 48 ≤ c ∧ c ≤ 57 then some (c + 4)
  else if c = 43 then some 62
  else if c = 47 then some 63
  else none

/-- Decoding of the four-character quanta of a text without line breaks.  The
last quantum may be padded with one or two `=`; anything after the padding, a
character outside the alphabet or an incomplete quantum is an error (`none`). -/
def decodeQuanta : Bytes → Option Bytes
  | a :: b :: c :: d :: rest =>
    match decodeMap a, decodeMap b with
    | some x, some y =>
      if c = 61 then
        if d = 61 ∧ rest = [] then some [x * 4 + y / 16] else none
      else
        match decodeMap c with
        | none => none
        | some z =>
          if d = 61 then
            if rest = [] then some [x * 4 + y / 16, (y % 16) * 16 + z / 4] else none
          else
            match decodeMap d with
            | none => none
            | some w =>
              (decodeQuanta rest).map
                (fun t => [x * 4 + y / 16, (y % 16) * 16 + z / 4, (z % 4) * 64 + w] ++ t)
    | _, _ => none
  | [] => some []
  | _ => none

/-- Go base64.StdEncoding.Decode: carriage returns and line feeds are skipped
wherever they occur; `none` stands for a CorruptInputError. -/
def Decode (src : Bytes) : Option Bytes :=
  decodeQuanta (src.filter (fun c => c ≠ 10 ∧ c ≠ 13))

end base64

/-! ## Package encoding/pem -/

namespace pem

/-- A decoded PEM block.  The header map of the Go struct is read by no code
of this program and is left out; `Decode` itself only asks whether it is
empty. -/
structure Block where
  /-- The type from the preamble (Go field Type). -/
  type : Bytes
  /-- The decoded payload (Go field Bytes). -/
  bytes : Bytes
  deriving DecidableEq, Repr

def pemStart : Bytes := ascii "\n-----BEGIN "
def pemEnd : Bytes := ascii "\n-----END "
def pemEndOfLine : Bytes := ascii "-----"
def colon : Bytes := ascii ":"

/-- Go pem.getLine: the first line of `data` without its line break and
trailing blanks, and the remainder after the line break. -/
def getLine (data : Bytes) : Bytes × Bytes :=
  match bytes.IndexByte data 10 with
  | none => (bytes.TrimRight data (ascii " \t"), [])
  | some i =>
    let j := i + 1
    let i := if 0 < i ∧ data[i - 1]? = some 13 then i - 1 else i
    (bytes.TrimRight (data.take i) (ascii " \t"), data.drop j)

/-- Go pem.removeSpacesAndTabs. -/
def removeSpacesAndTabs (data : Bytes) : Bytes :=
  data.filter (fun b => b ≠ 32 ∧ b ≠ 9)

/-- The header loop of Decode: skips the `key: value` lines.  Returns the
remainder at the first line without a colon and whether a header was seen;
`none` when the input ends first (Decode then returns nil).  Each round drops
a line of a non-empty remainder, so `rest.length` rounds are enough. -/
def headerLoop : Nat → Bytes → Bool → Option (Bytes × Bool)
  | fuel, rest, seen =>
    if rest.isEmpty then none
    else
      match bytes.Cut (getLine rest).1 colon with
      | none => some (rest, seen)
      | some _ =>
        match fuel with
        | 0 => none
        | n + 1 => headerLoop n (getLine rest).2 true

/-- Outcome of one round of the loop of Decode. -/
inductive Attempt where
  /-- The round ended in `return p, rest`. -/
  | found (p : Block) (rest : Bytes)
  /-- The round ended in `continue` with this remainder. -/
  | again (rest : Bytes)
  /-- The round ended in `return nil, data`. -/
  | giveUp
  deriving DecidableEq, Repr

/-- One round of the loop of Decode from just after a BEGIN marker. -/
def block (rest0 : Bytes) : Attempt :=
  let typeLine0 := (getLine rest0).1
  let rest1 := (getLine rest0).2
  if !bytes.HasSuffix typeLine0 pemEndOfLine then .again rest1
  else
    let typeLine := typeLine0.take (typeLine0.length - pemEndOfLine.length)
    match headerLoop rest1.length rest1 false with
    | none => .giveUp
    | some (rest, hasHeaders) =>
      let ends : Option (Nat × Nat) :=
        if !hasHeaders && bytes.HasPrefix rest (pemEnd.drop 1) then
          some (0, pemEnd.length - 1)
        else
          (bytes.Index rest pemEnd).map (fun i => (i, i + pemEnd.length))
      match ends with
      | none => .again rest
      | some (endIndex, endTrailerIndex) =>
        let endTrailer0 := rest.drop endTrailerIndex
        let endTrailerLen := typeLine.length + pemEndOfLine.length
        if endTrailer0.length < endTrailerLen then .again rest
        else
          let restOfEndLine := endTrailer0.drop endTrailerLen
          let endTrailer := endTrailer0.take endTrailerLen
          if !bytes.HasPrefix endTrailer typeLine || !bytes.HasSuffix endTrailer pemEndOfLine then
            .again rest
          else if (getLine restOfEndLine).1.length ≠ 0 then .again rest
          else
            match base64.Decode (removeSpacesAndTabs (rest.take endIndex)) with
            | none => .again rest
            | some der =>
              .found ⟨typeLine, der⟩ (getLine (rest.drop (endIndex + pemEnd.length - 1))).2

/-- Start of a round: the remainder after the next BEGIN marker, which is
accepted without its leading line feed at the very start of `rest`. -/
def findStart (rest : Bytes) : Option Bytes :=
  if bytes.HasPrefix rest (pemStart.drop 1) then some (rest.drop (pemStart.length - 1))
  else
    match bytes.Cut rest pemStart with
    | some (_, after) => some after
    | none => none

/-- The loop of Decode.  Every round consumes a BEGIN marker, so a fuel above
the length of `rest` is never used up (see `decodeLoop_fuel`). -/
def decodeLoop : Nat → Bytes → Option (Block × Bytes)
  | 0, _ => none
  | fuel + 1, rest =>
    match findStart rest with
    | none => none
    | some r =>
      match block r with
      | .found p rest1 => some (p, rest1)
      | .again rest1 => decodeLoop fuel rest1
      | .giveUp => none

/-- Go pem.Decode: finds the next PEM block in the input and returns it with
the remainder of the input; when no PEM data is found the block is nil and the
whole input is returned. -/
def Decode (data : Bytes) : Option Block × Bytes :=
  match decodeLoop (data.length + 1) data with
  | some (p, rest) => (some p, rest)
  | none => (none, data)

end pem

/-! ## cmd/boulder-wfe2/main.go -/

/-- A Go map with string keys: its entries, in the order range visits them. -/
abbrev GoMap (V : Type) := List (String × V)

/-- Map read `m[k]` with the comma-ok flag: `none` when the key is absent. -/
def mapGet {V : Type} : GoMap V → String → Option V
  | [], _ => none
  | (k1, v) :: m, k => if k1 = k then some v else mapGet m k

/-- Map write `m[k] = v`: replaces the value of a key already present, adds
the entry otherwise. -/
def mapSet {V : Type} : GoMap V → String → V → GoMap V
  | [], k, v => [(k, v)]
  | (k1, v1) :: m, k, v => if k1 = k then (k, v) :: m else (k1, v1) :: mapSet m k v

/-- The keys of a map. -/
def mapKeys {V : Type} (m : GoMap V) : List String := m.map Prod.fst

/-- What the program takes from its environment while it builds the chains. -/
structure World (Cert : Type) where
  /-- Go ioutil.ReadFile: the content of the named file, or an error. -/
  ReadFile : String → Except String Bytes
  /-- Go x509.ParseCertificate: the certificate parsed from DER, or an error. -/
  ParseCertificate : Bytes → Except String Cert
  /-- The call features.Set (package features): nil or an error. -/
  FeaturesSet : List (String × Bool) → Option String
  /-- The order in which range visits the entries of a loaded chain map. -/
  rangeOrder : GoMap Bytes → GoMap Bytes
  /-- Range visits every entry exactly once. -/
  rangeOrder_perm : ∀ m, (rangeOrder m).Perm m

/-- The errors built with fmt.Errorf in loadCertificateFile and
loadCertificateChains, one constructor per message, with the arguments that are
formatted into it. -/
inductive LoadError where
  /-- The message ending in "error reading contents: %s". -/
  | readFailed (aiaIssuerURL certFile err : String)
  /-- The message ending in "contents had CRLF line endings". -/
  | crlf (aiaIssuerURL certFile : String)
  /-- The message ending in "contents did not decode as PEM". -/
  | notPEM (aiaIssuerURL certFile : String)
  /-- The message "PEM block type incorrect, found %q, expected CERTIFICATE". -/
  | wrongType (aiaIssuerURL certFile : String) (found : Bytes)
  /-- The message ending in "certificate bytes failed to parse: %s". -/
  | parseFailed (aiaIssuerURL certFile err : String)
  /-- The message "PEM contents had unused remainder input (%d bytes)". -/
  | remainder (aiaIssuerURL certFile : String) (n : Nat)
  /-- The message ending in "has no chain file names configured". -/
  | noChainFiles (aiaIssuerURL : String)
  deriving DecidableEq, Repr

/-- What cmd.FailOnError is given as its error. -/
inductive Cause where
  | load (e : LoadError)
  | features (e : String)
  deriving DecidableEq, Repr

/-- The diagnostic with which startup is aborted. -/
inductive Fatal where
  /-- From cmd.FailOnError(err, msg). -/
  | onError (err : Cause) (msg : String)
  /-- From cmd.Fail(msg). -/
  | message (msg : String)
  deriving DecidableEq, Repr

/-- How a function call ends: it returns, or a run-time panic is raised. -/
inductive Call (α : Type) where
  | ret (a : α)
  | panic
  deriving DecidableEq, Repr

/-- How a run of main ends: it gets through, the process exits with a
diagnostic, or a run-time panic is raised. -/
inductive Run (α : Type) where
  | ret (a : α)
  | exit (d : Fatal)
  | panic
  deriving DecidableEq, Repr

/-- The three results of loadCertificateFile. -/
structure FileResult (Cert : Type) where
  pemBytes : Bytes
  cert : Option Cert
  err : Option LoadError
  deriving DecidableEq, Repr

/-- Embedding of loadCertificateFile (main.go, lines 121-173).  The index
expression of line 169 panics when the content is empty. -/
def loadCertificateFile {Cert : Type} (W : World Cert) (aiaIssuerURL certFile : String) :
    Call (FileResult Cert) :=
  match W.ReadFile certFile with
  | .error err => .ret ⟨[], none, some (.readFailed aiaIssuerURL certFile err)⟩
  | .ok pemBytes =>
    if bytes.Contains pemBytes (ascii "\r\n") then
      .ret ⟨[], none, some (.crlf aiaIssuerURL certFile)⟩
    else
      match pem.Decode pemBytes with
      | (none, _) => .ret ⟨[], none, some (.notPEM aiaIssuerURL certFile)⟩
      | (some certBlock, rest) =>
        if certBlock.type ≠ ascii "CERTIFICATE" then
          .ret ⟨[], none, some (.wrongType aiaIssuerURL certFile certBlock.type)⟩
        else
          match W.ParseCertificate certBlock.bytes with
          | .error err => .ret ⟨[], none, some (.parseFailed aiaIssuerURL certFile err)⟩
          | .ok cert =>
            if rest.length ≠ 0 then
              .ret ⟨[], none, some (.remainder aiaIssuerURL certFile rest.length)⟩
            else
              match pemBytes[pemBytes.length - 1]? with
              | none => .panic
              | some last =>
                if last ≠ 10 then .ret ⟨pemBytes ++ [10], some cert, none⟩
                else .ret ⟨pemBytes, some cert, none⟩

/-- How a loop body sequence ends: the loop runs to its end with a final
state, the enclosing function returns `nil, nil, err`, or a panic is raised. -/
inductive Loop (σ : Type) where
  | done (s : σ)
  | returned (e : LoadError)
  | panicked
  deriving DecidableEq, Repr

/-- The loop over certFiles of loadCertificateChains (lines 200-217); `i` is
the index of the first file of the list, the state is the buffer and
issuerCerts. -/
def certFilesLoop {Cert : Type} (W : World Cert) (aiaIssuerURL : String) :
    List String → Nat → Bytes → List (Option Cert) → Loop (Bytes × List (Option Cert))
  | [], _, buffer, issuerCerts => .done (buffer, issuerCerts)
  | c :: more, i, buffer, issuerCerts =>
    match loadCertificateFile W aiaIssuerURL c with
    | .panic => .panicked
    | .ret r =>
      match r.err with
      | some err => .returned err
      | none =>
        certFilesLoop W aiaIssuerURL more (i + 1) ((buffer ++ [10]) ++ r.pemBytes)
          (if i = 0 then issuerCerts ++ [r.cert] else issuerCerts)

/-- The loop over chainConfig of loadCertificateChains (lines 187-223); the
state is results and issuerCerts. -/
def issuersLoop {Cert : Type} (W : World Cert) (requireAtLeastOneChain : Bool) :
    GoMap (List String) → GoMap Bytes → List (Option Cert) →
      Loop (GoMap Bytes × List (Option Cert))
  | [], results, issuerCerts => .done (results, issuerCerts)
  | (aiaIssuerURL, certFiles) :: more, results, issuerCerts =>
    if requireAtLeastOneChain && certFiles.length == 0 then
      .returned (.noChainFiles aiaIssuerURL)
    else
      match certFilesLoop W aiaIssuerURL certFiles 0 [] issuerCerts with
      | .returned err => .returned err
      | .panicked => .panicked
      | .done (buffer, issuerCerts1) =>
        issuersLoop W requireAtLeastOneChain more
          (if buffer.length > 0 then mapSet results aiaIssuerURL buffer else results)
          issuerCerts1

/-- The three results of loadCertificateChains; a nil map is `none`. -/
structure ChainsResult (Cert : Type) where
  results : Option (GoMap Bytes)
  issuerCerts : List (Option Cert)
  err : Option LoadError
  deriving DecidableEq, Repr

/-- Embedding of loadCertificateChains (main.go, lines 182-226); chainConfig
lists the entries of the map in the order range visits them. -/
def loadCertificateChains {Cert : Type} (W : World Cert) (chainConfig : GoMap (List String))
    (requireAtLeastOneChain : Bool) : Call (ChainsResult Cert) :=
  match issuersLoop W requireAtLeastOneChain chainConfig [] [] with
  | .done (results, issuerCerts) => .ret ⟨some results, issuerCerts, none⟩
  | .returned err => .ret ⟨none, [], some err⟩
  | .panicked => .panic

/-- Modelled from the spec: cmd.Fail of package cmd, whose source is not at
hand.  A fatal configuration error terminates the process at once with a
descriptive diagnostic; nothing after the call runs. -/
def Fail {α : Type} (msg : String) : Run α := .exit (.message msg)

/-- Modelled from the spec: cmd.FailOnError of package cmd, whose source is
not at hand.  With a nil error the program goes on (`next`); with an error
the process is terminated with a diagnostic made of the error and `msg`. -/
def FailOnError {α : Type} (err : Option Cause) (msg : String) (next : Run α) : Run α :=
  match err with
  | none => next
  | some e => .exit (.onError e msg)

/-- The part of the configuration that main reads while building chains. -/
structure Config where
  /-- Field WFE.CertificateChains. -/
  CertificateChains : GoMap (List String)
  /-- Field WFE.AlternateCertificateChains; `none` is the nil map. -/
  AlternateCertificateChains : Option (GoMap (List String))
  /-- Field WFE.Features. -/
  Features : List (String × Bool)

/-- The loop of main over certChains (lines 292-294). -/
def defaultsLoop : GoMap Bytes → GoMap (List Bytes) → GoMap (List Bytes)
  | [], allCertChains => allCertChains
  | (aiaURL, chainPEM) :: more, allCertChains =>
    defaultsLoop more (mapSet allCertChains aiaURL [chainPEM])

/-- The text of the diagnostic of line 305. -/
def missingDefaultMsg (aiaURL : String) : String :=
  "AIA Issuer URL " ++ aiaURL ++ " appeared in AlternateCertificateChains, " ++
    "but does not exist in CertificateChains"

/-- The loop of main over altCertChains (lines 303-309). -/
def alternatesLoop : GoMap Bytes → GoMap (List Bytes) → Run (GoMap (List Bytes))
  | [], allCertChains => .ret allCertChains
  | (aiaURL, chainPEM) :: more, allCertChains =>
    match mapGet allCertChains aiaURL with
    | none => Fail (missingDefaultMsg aiaURL)
    | some chains => alternatesLoop more (mapSet allCertChains aiaURL (chains ++ [chainPEM]))

/-- Embedding of main from line 287 to line 310: what is handed to
wfe2.NewWebFrontEndImpl as allCertChains and issuerCerts. -/
def chainSets {Cert : Type} (W : World Cert) (c : Config) :
    Run (GoMap (List Bytes) × List (Option Cert)) :=
  match loadCertificateChains W c.CertificateChains true with
  | .panic => .panic
  | .ret r =>
    FailOnError (r.err.map Cause.load) "Couldn't read configured CertificateChains"
      (let allCertChains := defaultsLoop (W.rangeOrder (r.results.getD [])) []
       FailOnError ((W.FeaturesSet c.Features).map Cause.features) "Failed to set feature flags"
        (match c.AlternateCertificateChains with
         | none => .ret (allCertChains, r.issuerCerts)
         | some alternates =>
           match loadCertificateChains W alternates false with
           | .panic => .panic
           | .ret ra =>
             FailOnError (ra.err.map Cause.load)
               "Couldn't read configured AlternateCertificateChains"
               (match alternatesLoop (W.rangeOrder (ra.results.getD [])) allCertChains with
                | .panic => .panic
                | .exit d => .exit d
                | .ret allCertChains1 => .ret (allCertChains1, r.issuerCerts))))

/-! ### errorWriter -/

/-- The levels of the records a blog.Logger takes. -/
inductive Level where
  | err
  | warning
  | info
  | debug
  deriving DecidableEq, Repr

/-- One record handed to the logger: the level of the method called and the
message. -/
structure LogRecord where
  level : Level
  msg : Bytes
  deriving DecidableEq, Repr

/-- Modelled from the spec: the method Err of blog.Logger (package log, whose
source is not at hand).  The structured logger takes the message as one
error-level record; the logger is the list of the records it was given. -/
def Logger.Err (logger : List LogRecord) (msg : Bytes) : List LogRecord :=
  logger ++ [⟨.err, msg⟩]

/-- The results `n` and `err` of errorWriter.Write, and the logger after the
call. -/
structure WriteResult where
  n : Int
  err : Option String
  logger : List LogRecord
  deriving DecidableEq, Repr

/-- Embedding of errorWriter.Write (main.go, lines 260-270).  The results are
named and the function ends in a bare `return`: `n` and `err` are never
assigned and keep their zero values. -/
def errorWriter.Write (logger : List LogRecord) (p : Bytes) : WriteResult :=
  let p1 := bytes.TrimRight p (ascii "\n")
  let logger1 := Logger.Err logger (ascii "net/http.Server: " ++ p1)
  ⟨0, none, logger1⟩

/-! ### The listeners -/

/-- Go time.Second, in nanoseconds. -/
def time.Second : Int := 1000000000

/-- The fields of config.WFE that main reads for the listeners and for the
shutdown. -/
structure ListenConfig where
  ListenAddress : String
  TLSListenAddress : String
  ServerCertificatePath : String
  ServerKeyPath : String
  /-- Field ShutdownStopTimeout (its Duration), in nanoseconds. -/
  ShutdownStopTimeout : Int
  deriving DecidableEq, Repr

/-- The fields of http.Server that main sets; `ErrorLog` is the logger that
errorWriter wraps. -/
structure Server (H L : Type) where
  ReadTimeout : Int
  WriteTimeout : Int
  IdleTimeout : Int
  Addr : String
  ErrorLog : L
  Handler : H
  deriving DecidableEq, Repr

/-- The value `srv` of main (lines 355-362). -/
def srv {H L : Type} (c : ListenConfig) (logger : L) (handler : H) : Server H L where
  ReadTimeout := 30 * time.Second
  WriteTimeout := 120 * time.Second
  IdleTimeout := 120 * time.Second
  Addr := c.ListenAddress
  ErrorLog := logger
  Handler := handler

/-- The value `tlsSrv` of main (lines 371-378). -/
def tlsSrv {H L : Type} (c : ListenConfig) (logger : L) (handler : H) : Server H L where
  ReadTimeout := 30 * time.Second
  WriteTimeout := 120 * time.Second
  IdleTimeout := 120 * time.Second
  Addr := c.TLSListenAddress
  ErrorLog := logger
  Handler := handler

/-- The serving call a goroutine of main makes. -/
inductive Serve (H L : Type) where
  | ListenAndServe (s : Server H L)
  | ListenAndServeTLS (s : Server H L) (certFile keyFile : String)
  deriving DecidableEq, Repr

/-- A goroutine started by main for a listener: the serving call, and the
message given to cmd.FailOnError when the call ends with an error other than
http.ErrServerClosed. -/
structure Goroutine (H L : Type) where
  call : Serve H L
  failMsg : String
  deriving DecidableEq, Repr

/-- Embedding of main, lines 364-386: the goroutines started for the
listeners, in the order of the `go` statements. -/
def startListeners {H L : Type} (c : ListenConfig) (logger : L) (handler : H) :
    List (Goroutine H L) :=
  [⟨.ListenAndServe (srv c logger handler), "Running HTTP server"⟩] ++
    (if (tlsSrv c logger handler).Addr ≠ "" then
      [⟨.ListenAndServeTLS (tlsSrv c logger handler) c.ServerCertificatePath c.ServerKeyPath,
        "Running TLS server"⟩]
    else [])

/-- The error a serving call ends with. -/
inductive ServeError where
  | ErrServerClosed
  | other (msg : String)
  deriving DecidableEq, Repr

/-- The end of a goroutine of a listener (lines 365-368 and 381-384): the
diagnostic with which the process is ended, if any. -/
def Goroutine.finish {H L : Type} (g : Goroutine H L) (err : Option ServeError) :
    Option (ServeError × String) :=
  match err with
  | none => none
  | some .ErrServerClosed => none
  | some e => some (e, g.failMsg)

/-! ### The shutdown (main.go, lines 388-401)

Two threads matter: main, which ends in the receive `<-done`, and the goroutine
of cmd.CatchSignals with the callback of lines 389-395.  The channel `done` is
unbuffered, so the send of line 394 and the receive of line 401 happen
together.  A call of Shutdown is two steps, the call and its return, and the
caller does nothing in between.  The steps of the two threads interleave in
any order. -/

/-- The two servers of main. -/
inductive Listener where
  | plain
  | tls
  deriving DecidableEq, Repr

/-- The context made by context.WithTimeout(context.Background(), d). -/
structure Context where
  timeout : Int
  deriving DecidableEq, Repr

/-- What happens during the shutdown, in the order in which it happens. -/
inductive Event where
  /-- The termination signal is caught. -/
  | signal
  /-- Line 390: the context is made. -/
  | withTimeout (ctx : Context)
  /-- Lines 392 and 393: Shutdown is called on a server. -/
  | shutdownCalled (l : Listener) (ctx : Context)
  /-- The call of Shutdown on a server returns. -/
  | shutdownReturned (l : Listener)
  /-- Line 394 together with line 401: `true` passes through `done`. -/
  | doneSent
  /-- The deferred cancel of line 391 runs. -/
  | cancelCalled
  /-- The function main returns. -/
  | mainReturned
  deriving DecidableEq, Repr

/-- Where main stands: before line 401, in the receive, past it, returned. -/
inductive MainPc where
  | starting
  | receiving
  | received
  | returned
  deriving DecidableEq, Repr

/-- Where the goroutine of cmd.CatchSignals stands. -/
inductive HandlerPc where
  /-- Waiting for a signal. -/
  | waiting
  /-- The callback starts (before line 390). -/
  | signalled
  /-- Before line 392. -/
  | haveCtx
  /-- In srv.Shutdown. -/
  | inSrvShutdown
  /-- Before line 393. -/
  | srvDone
  /-- In tlsSrv.Shutdown. -/
  | inTLSShutdown
  /-- Before line 394. -/
  | tlsDone
  /-- Past line 394, before the deferred cancel. -/
  | sent
  /-- The callback has returned. -/
  | finished
  deriving DecidableEq, Repr

/-- The state of the shutdown: the two threads, the variable `ctx` of the
callback, and the events so far. -/
structure ShutdownState where
  main : MainPc
  handler : HandlerPc
  ctx : Option Context
  trace : List Event
  deriving DecidableEq, Repr

/-- The state when main has started its goroutines (line 389 done). -/
def ShutdownState.init : ShutdownState := ⟨.starting, .waiting, none, []⟩

/-- One step of main: it reaches the receive of line 401, waits there, and
returns once a value has come through `done`. -/
def stepMain (s : ShutdownState) : ShutdownState :=
  match s.main with
  | .starting => { s with main := .receiving }
  | .receiving => s
  | .received => { s with main := .returned, trace := s.trace ++ [.mainReturned] }
  | .returned => s

/-- Modelled from the spec: cmd.CatchSignals of package cmd, whose source is
not at hand, waits for a termination signal and then runs the callback it was
given.  The steps of the callback are those of lines 390-394, in program
order; the send of line 394 goes through only while main is in the receive. -/
def stepHandler (c : ListenConfig) (s : ShutdownState) : ShutdownState :=
  match s.handler with
  | .waiting => { s with handler := .signalled, trace := s.trace ++ [.signal] }
  | .signalled =>
    { s with handler := .haveCtx, ctx := some ⟨c.ShutdownStopTimeout⟩,
             trace := s.trace ++ [.withTimeout ⟨c.ShutdownStopTimeout⟩] }
  | .haveCtx =>
    match s.ctx with
    | some ctx =>
      { s with handler := .inSrvShutdown, trace := s.trace ++ [.shutdownCalled .plain ctx] }
    | none => s
  | .inSrvShutdown =>
    { s with handler := .srvDone, trace := s.trace ++ [.shutdownReturned .plain] }
  | .srvDone =>
    match s.ctx with
    | some ctx =>
      { s with handler := .inTLSShutdown, trace := s.trace ++ [.shutdownCalled .tls ctx] }
    | none => s
  | .inTLSShutdown =>
    { s with handler := .tlsDone, trace := s.trace ++ [.shutdownReturned .tls] }
  | .tlsDone =>
    if s.main = .receiving then
      { s with handler := .sent, main := .received, trace := s.trace ++ [.doneSent] }
    else s
  | .sent => { s with handler := .finished, trace := s.trace ++ [.cancelCalled] }
  | .finished => s

/-- The threads of the shutdown. -/
inductive Thread where
  | main
  | handler
  deriving DecidableEq, Repr

/-- One step of the thread the scheduler picks; a thread that cannot move
leaves the state as it is. -/
def step (c : ListenConfig) (t : Thread) (s : ShutdownState) : ShutdownState :=
  match t with
  | .main => stepMain s
  | .handler => stepHandler c s

/-- The state after the steps of a schedule, from a given state. -/
def run (c : ListenConfig) : List Thread → ShutdownState → ShutdownState
  | [], s => s
  | t :: sched, s => run c sched (step c t s)

/-- Every occurrence in `t` of an event that satisfies `b` comes after an
event that satisfies `a`; `seen` tells whether one came before `t`. -/
def precededFrom (a b : Event → Bool) : Bool → List Event → Bool
  | _, [] => true
  | seen, e :: t => (seen || !b e) && precededFrom a b (seen || a e) t

/-- Every occurrence in `t` of an event that satisfies `b` comes after an
event that satisfies `a`. -/
def precededBy (a b : Event → Bool) (t : List Event) : Bool := precededFrom a b false t

/-- Shutdown is called on the server `l`. -/
def Event.isCall (l : Listener) : Event → Bool
  | .shutdownCalled l1 _ => l1 = l
  | _ => false

/-- A context is made. -/
def Event.isWithTimeout : Event → Bool
  | .withTimeout _ => true
  | _ => false

/-! ## features/featureflag_string.go -/

namespace features

/-- Go strconv.FormatInt(i, 10): the decimal digits of `i`, after a minus sign
when `i` is negative. -/
def FormatInt10 (i : Int) : String :=
  if i < 0 then "-" ++ Nat.repr i.natAbs else Nat.repr i.natAbs

/-- The Go slice expression `s[lo:hi]` on a string of ASCII characters; it
panics when the bounds are out of range. -/
def sliceString (s : String) (lo hi : Nat) : Call String :=
  if lo ≤ hi ∧ hi ≤ s.length then .ret (String.mk ((s.toList.drop lo).take (hi - lo)))
  else .panic

/-- The constant _FeatureFlag_name. -/
def _FeatureFlag_name : String :=
  "unusedStoreRevokerInfoROCSPStage6ROCSPStage7CAAValidationMethodsCAAAccountURIEnforceMultiVAMultiVAFullResultsECDSAForAllServeRenewalInfoAllowUnrecognizedFeaturesExpirationMailerUsesJoinCertCheckerChecksValidationsCertCheckerRequiresValidationsAsyncFinalizeRequireCommonNameStoreLintingCertificateInsteadOfPrecertificate"

/-- The table _FeatureFlag_index (of uint16 values). -/
def _FeatureFlag_index : List Nat :=
  [0, 6, 22, 33, 44, 64, 77, 91, 109, 120, 136, 161, 185, 213, 243, 256, 273, 319]

/-- The constants of type FeatureFlag with the values that the compile-time
check of lines 7-28 pins: `x[unused-0]` compiles only when unused is 0, and
so on. -/
def constants : List (String × Int) :=
  [("unused", 0), ("StoreRevokerInfo", 1), ("ROCSPStage6", 2), ("ROCSPStage7", 3),
   ("CAAValidationMethods", 4), ("CAAAccountURI", 5), ("EnforceMultiVA", 6),
   ("MultiVAFullResults", 7), ("ECDSAForAll", 8), ("ServeRenewalInfo", 9),
   ("AllowUnrecognizedFeatures", 10), ("ExpirationMailerUsesJoin", 11),
   ("CertCheckerChecksValidations", 12), ("CertCheckerRequiresValidations", 13),
   ("AsyncFinalize", 14), ("RequireCommonName", 15),
   ("StoreLintingCertificateInsteadOfPrecertificate", 16)]

/-- Embedding of FeatureFlag.String (lines 34-39); a FeatureFlag is a Go int.
An index or a slice out of range is a panic. -/
def FeatureFlag.String (i : Int) : Call String :=
  if i < 0 ∨ i ≥ (_FeatureFlag_index.length : Int) - 1 then
    .ret ("FeatureFlag(" ++ FormatInt10 i ++ ")")
  else
    match _FeatureFlag_index[i.toNat]?, _FeatureFlag_index[i.toNat + 1]? with
    | some lo, some hi => sliceString _FeatureFlag_name lo hi
    | _, _ => .panic

end features

/-! ## Words of the specification -/

/-- The error loadCertificateFile returns for a file (nil when it accepts it). -/
def fileErr {Cert : Type} (W : World Cert) (url file : String) : Option LoadError :=
  match loadCertificateFile W url file with
  | .ret r => r.err
  | .panic => none

/-- The `normalize` of the specification: the bytes loadCertificateFile
returns for a file. -/
def normalize {Cert : Type} (W : World Cert) (url file : String) : Bytes :=
  match loadCertificateFile W url file with
  | .ret r => r.pemBytes
  | .panic => []

/-- The certificate loadCertificateFile returns for a file. -/
def fileCert {Cert : Type} (W : World Cert) (url file : String) : Option Cert :=
  match loadCertificateFile W url file with
  | .ret r => r.cert
  | .panic => none

/-- The chain of the specification for a file list: a line feed before the
normalized bytes of every file, in the order of the list. -/
def chainOf {Cert : Type} (W : World Cert) (url : String) : List String → Bytes
  | [] => []
  | f :: fs => 10 :: normalize W url f ++ chainOf W url fs

/-- The direct issuer certificate of one entry of the configuration: the
certificate of its first file, nothing for an empty file list. -/
def directCert {Cert : Type} (W : World Cert) (e : String × List String) : List (Option Cert) :=
  match e.2 with
  | [] => []
  | f :: _ => [fileCert W e.1 f]

/-- The map entries the specification asks for, entry by entry: the chain of
every issuer with a non-empty file list. -/
def storeChains {Cert : Type} (W : World Cert) :
    GoMap (List String) → GoMap Bytes → GoMap Bytes
  | [], results => results
  | (url, files) :: more, results =>
    storeChains W more (if files = [] then results else mapSet results url (chainOf W url files))

/-- An entry of the configuration that loadCertificateChains gets through. -/
def entryOk {Cert : Type} (W : World Cert) (requireAtLeastOneChain : Bool)
    (e : String × List String) : Prop :=
  (requireAtLeastOneChain = true → e.2 ≠ []) ∧ ∀ f ∈ e.2, fileErr W e.1 f = none

/-- The events of a run of the shutdown under a schedule. -/
def shutdownTrace (c : ListenConfig) (sched : List Thread) : List Event :=
  (run c sched ShutdownState.init).trace

/-- The event is `x`. -/
def Event.is (x : Event) : Event → Bool := fun e => decide (e = x)

/-- In the words of the specification, `b` happens only after `a`: every
occurrence in `t` of an event that satisfies `b` has an event that satisfies
`a` before it. -/
def Precedes (a b : Event → Bool) (t : List Event) : Prop :=
  ∀ pre e post, t = pre ++ e :: post → b e = true → ∃ x ∈ pre, a x = true

/-- The stop request to the TLS listener is issued without waiting for the
drain of the plaintext listener: some call of Shutdown on the TLS server has no
return of Shutdown on the plaintext server before it. -/
def issuedWithoutWaiting (t : List Event) : Bool :=
  !precededBy (Event.is (.shutdownReturned .plain)) (Event.isCall .tls) t

/-- The events up to the send on `done`, in program order. -/
def eventsUpToSend (c : ListenConfig) : List Event :=
  [.signal, .withTimeout ⟨c.ShutdownStopTimeout⟩,
   .shutdownCalled .plain ⟨c.ShutdownStopTimeout⟩, .shutdownReturned .plain,
   .shutdownCalled .tls ⟨c.ShutdownStopTimeout⟩, .shutdownReturned .tls, .doneSent]

/-- The two complete sequences of events: after the send, the deferred cancel
and the return of main come in either order. -/
def allEvents (c : ListenConfig) (cancelFirst : Bool) : List Event :=
  eventsUpToSend c ++
    (if cancelFirst then [.cancelCalled, .mainReturned] else [.mainReturned, .cancelCalled])

/-- The invariant of the shutdown: where the two threads stand fixes the
events so far. -/
def ShutdownInv (c : ListenConfig) (s : ShutdownState) : Prop :=
  match s.handler with
  | .waiting =>
    (s.main = .starting ∨ s.main = .receiving) ∧ s.ctx = none ∧ s.trace = []
  | .signalled =>
    (s.main = .starting ∨ s.main = .receiving) ∧ s.ctx = none ∧ s.trace = [.signal]
  | .haveCtx =>
    (s.main = .starting ∨ s.main = .receiving) ∧ s.ctx = some ⟨c.ShutdownStopTimeout⟩ ∧
      s.trace = (eventsUpToSend c).take 2
  | .inSrvShutdown =>
    (s.main = .starting ∨ s.main = .receiving) ∧ s.ctx = some ⟨c.ShutdownStopTimeout⟩ ∧
      s.trace = (eventsUpToSend c).take 3
  | .srvDone =>
    (s.main = .starting ∨ s.main = .receiving) ∧ s.ctx = some ⟨c.ShutdownStopTimeout⟩ ∧
      s.trace = (eventsUpToSend c).take 4
  | .inTLSShutdown =>
    (s.main = .starting ∨ s.main = .receiving) ∧ s.ctx = some ⟨c.ShutdownStopTimeout⟩ ∧
      s.trace = (eventsUpToSend c).take 5
  | .tlsDone =>
    (s.main = .starting ∨ s.main = .receiving) ∧ s.ctx = some ⟨c.ShutdownStopTimeout⟩ ∧
      s.trace = (eventsUpToSend c).take 6
  | .sent =>
    (s.main = .received ∧ s.trace = eventsUpToSend c) ∨
    (s.main = .returned ∧ s.trace = eventsUpToSend c ++ [.mainReturned])
  | .finished =>
    (s.main = .received ∧ s.trace = eventsUpToSend c ++ [.cancelCalled]) ∨
    (s.main = .returned ∧ (s.trace = allEvents c true ∨ s.trace = allEvents c false))

/-- The number that a sequence of decimal digits writes, most significant
digit first. -/
def decimalValue (ds : List Char) : Nat :=
  ds.foldl (fun acc c => 10 * acc + (c.toNat - 48)) 0

/-! ## Sample environment -/

/-- A certificate file of the sample environment. -/
def samplePEM : Bytes :=
  ascii "-----BEGIN CERTIFICATE-----\nMAA=\n-----END CERTIFICATE-----\n"

/-- A sample environment: some files, and a stand-in for the X.509 parser that
takes any DER that opens with a SEQUENCE tag and keeps it as it is. -/
def sampleWorld : World Bytes where
  ReadFile := fun f =>
    if f = "a.pem" then .ok samplePEM
    else if f = "b.pem" then .ok (ascii "-----BEGIN CERTIFICATE-----\nMAE=\n-----END CERTIFICATE-----")
    else if f = "crlf.pem" then
      .ok (ascii "-----BEGIN CERTIFICATE-----\r\nMAA=\r\n-----END CERTIFICATE-----\r\n")
    else if f = "two.pem" then .ok (samplePEM ++ samplePEM)
    else if f = "note.pem" then .ok (ascii "x\n" ++ samplePEM)
    else .error "open: no such file or directory"
  ParseCertificate := fun der =>
    if der.head? = some 48 then .ok der else .error "x509: malformed certificate"
  FeaturesSet := fun _ => none
  rangeOrder := fun m => m
  rangeOrder_perm := fun m => List.Perm.refl m

/-- A configuration with a default chain of two files and an alternate chain
of one file for the same issuer. -/
def sampleConfig : Config where
  CertificateChains := [("http://ca.example/r3", ["a.pem", "b.pem"])]
  AlternateCertificateChains := some [("http://ca.example/r3", ["b.pem"])]
  Features := []

/-- The chain sets main builds from the sample configuration. -/
def sampleChainSets : GoMap (List Bytes) :=
  [("http://ca.example/r3",
    [10 :: samplePEM ++
        ascii "\n-----BEGIN CERTIFICATE-----\nMAE=\n-----END CERTIFICATE-----\n",
      ascii "\n-----BEGIN CERTIFICATE-----\nMAE=\n-----END CERTIFICATE-----\n"])]

/-- A listener configuration with both addresses set and ten seconds to stop. -/
def sampleListen : ListenConfig where
  ListenAddress := "0.0.0.0:4001"
  TLSListenAddress := "0.0.0.0:4431"
  ServerCertificatePath := "wfe.pem"
  ServerKeyPath := "wfe.key"
  ShutdownStopTimeout := 10 * time.Second

/-- A configuration whose alternate chain is for an issuer without a default
chain. -/
def strayConfig : Config where
  CertificateChains := [("http://ca.example/r3", ["a.pem"])]
  AlternateCertificateChains := some [("http://ca.example/x1", ["b.pem"])]
  Features := []

/-- A configuration in which two issuers without a default chain are keys of
AlternateCertificateChains, the first with an empty file list and the second
with one file. -/
def mixedAlternateConfig : Config where
  CertificateChains := [("http://ca.example/r3", ["a.pem"])]
  AlternateCertificateChains :=
    some [("http://ca.example/x1", []), ("http://ca.example/x2", ["b.pem"])]
  Features := []

/-- A configuration in which an issuer without a default chain is a key of
AlternateCertificateChains with an empty file list. -/
def emptyAlternateConfig : Config where
  CertificateChains := [("http://ca.example/r3", ["a.pem"])]
  AlternateCertificateChains := some [("http://ca.example/x1", [])]
  Features := []

/-! ## Facts about package bytes -/

theorem bytes.indexFrom_isSome (sep s : Bytes) (i : Nat) :
    (bytes.indexFrom sep s i).isSome = true ↔ sep <:+: s := by
  induction s generalizing i with
  | nil =>
    cases sep <;> simp [bytes.indexFrom, List.isPrefixOf]
  | cons b s ih =>
    rw [bytes.indexFrom, List.infix_cons_iff]
    by_cases h : sep.isPrefixOf (b :: s) = true
    · rw [if_pos h]
      simp [List.isPrefixOf_iff_prefix.mp h]
    · rw [if_neg h, ih]
      have : ¬ sep <+: b :: s := fun hp => h (List.isPrefixOf_iff_prefix.mpr hp)
      simp [this]

theorem bytes.Contains_iff (s sep : Bytes) : bytes.Contains s sep = true ↔ sep <:+: s := by
  unfold bytes.Contains bytes.Index
  exact bytes.indexFrom_isSome sep s 0

theorem ascii_crlf : ascii "\r\n" = [13, 10] := by decide

/-! ## Facts about pem.Decode -/

theorem pem.Decode_nil : pem.Decode [] = (none, []) := by decide

theorem pem.Decode_ne_nil {data : Bytes} {p : pem.Block} {rest : Bytes}
    (h : pem.Decode data = (some p, rest)) : data ≠ [] := by
  rintro rfl
  rw [pem.Decode_nil] at h
  cases h

theorem pem.pemStart_eq : pem.pemStart = [10, 45, 45, 45, 45, 45, 66, 69, 71, 73, 78, 32] := by
  decide

/-- More fuel does not change a block that the loop of Decode has found. -/
theorem pem.decodeLoop_mono {n : Nat} {rest : Bytes} {x : pem.Block × Bytes}
    (h : pem.decodeLoop n rest = some x) (m : Nat) (hm : n ≤ m) :
    pem.decodeLoop m rest = some x := by
  induction n generalizing rest m with
  | zero => simp [pem.decodeLoop] at h
  | succ n ih =>
    obtain ⟨k, rfl⟩ : ∃ k, m = k + 1 := ⟨m - 1, by omega⟩
    rw [pem.decodeLoop] at h ⊢
    cases hs : pem.findStart rest with
    | none => rw [hs] at h; cases h
    | some r =>
      rw [hs] at h
      simp only at h ⊢
      cases hb : pem.block r with
      | found p rest1 => rw [hb] at h; simpa using h
      | again rest1 =>
        rw [hb] at h
        simp only at h ⊢
        exact ih h k (by omega)
      | giveUp => rw [hb] at h; cases h

/-- Where bytes.Index finds `sep`, it stands there: the rest of `s` from that
position on opens with it. -/
theorem bytes.indexFrom_some (sep s : Bytes) (j k : Nat)
    (h : bytes.indexFrom sep s j = some k) :
    ∃ i, k = j + i ∧ i ≤ s.length ∧ sep <+: s.drop i := by
  induction s generalizing j with
  | nil =>
    rw [bytes.indexFrom] at h
    split at h
    · rename_i hp
      simp only [Option.some.injEq] at h
      exact ⟨0, by omega, by simp, List.isPrefixOf_iff_prefix.mp hp⟩
    · cases h
  | cons b s ih =>
    rw [bytes.indexFrom] at h
    split at h
    · rename_i hp
      simp only [Option.some.injEq] at h
      exact ⟨0, by omega, by simp, List.isPrefixOf_iff_prefix.mp hp⟩
    · obtain ⟨i, hk, hi, hpre⟩ := ih (j + 1) h
      exact ⟨i + 1, by omega, by simp [hi], by simpa using hpre⟩

theorem bytes.index_add_length_le (sep s : Bytes) (k : Nat)
    (h : bytes.Index s sep = some k) : k + sep.length ≤ s.length := by
  obtain ⟨i, hk, hi, hpre⟩ := bytes.indexFrom_some sep s 0 k h
  have hlen := hpre.length_le
  rw [List.length_drop] at hlen
  omega

/-- The remainder getLine returns is shorter than a non-empty input. -/
theorem pem.getLine_snd_length (data : Bytes) :
    (pem.getLine data).2.length ≤ data.length - 1 := by
  unfold pem.getLine
  cases h : bytes.IndexByte data 10 with
  | none => simp
  | some i =>
    simp only [List.length_drop]
    omega

/-- The remainder at which the header loop stops is part of its input. -/
theorem pem.headerLoop_length (n : Nat) (rest : Bytes) (seen : Bool) (r : Bytes) (b : Bool)
    (h : pem.headerLoop n rest seen = some (r, b)) : r.length ≤ rest.length := by
  induction n generalizing rest seen with
  | zero =>
    rw [pem.headerLoop] at h
    split at h
    · cases h
    · split at h
      · simp only [Option.some.injEq, Prod.mk.injEq] at h
        rw [← h.1]
      · cases h
  | succ n ih =>
    rw [pem.headerLoop] at h
    split at h
    · cases h
    · split at h
      · simp only [Option.some.injEq, Prod.mk.injEq] at h
        rw [← h.1]
      · have h1 := ih _ _ h
        have h2 := pem.getLine_snd_length rest
        omega

/-- The header loop never runs out of rounds: with at least `rest.length`
rounds the result does not depend on their number. -/
theorem pem.headerLoop_fuel (n m : Nat) (rest : Bytes) (seen : Bool)
    (hn : rest.length ≤ n) (hm : rest.length ≤ m) :
    pem.headerLoop n rest seen = pem.headerLoop m rest seen := by
  have hnil : ∀ (k : Nat) (b : Bool), pem.headerLoop k [] b = none := by
    intro k b
    cases k <;> simp [pem.headerLoop]
  induction n generalizing m rest seen with
  | zero =>
    have : rest = [] := List.length_eq_zero.mp (by omega)
    subst this
    rw [hnil, hnil]
  | succ n ih =>
    cases rest with
    | nil => rw [hnil, hnil]
    | cons a t =>
      obtain ⟨k, rfl⟩ : ∃ k, m = k + 1 := ⟨m - 1, by simp at hm; omega⟩
      rw [pem.headerLoop, pem.headerLoop]
      have h2 := pem.getLine_snd_length (a :: t)
      simp only [List.length_cons] at hn hm h2
      rw [ih k (pem.getLine (a :: t)).2 true (by omega) (by omega)]

/-- A round of Decode that ends in `continue` goes on with a part of its
input. -/
theorem pem.block_again_length (r rest1 : Bytes) (h : pem.block r = .again rest1) :
    rest1.length ≤ r.length := by
  have hg := pem.getLine_snd_length r
  unfold pem.block at h
  simp only at h
  split at h
  · simp only [pem.Attempt.again.injEq] at h
    rw [← h]
    omega
  · split at h
    · cases h
    · rename_i rest hasHeaders hh
      have hlen := pem.headerLoop_length _ _ _ _ _ hh
      have key : rest1 = rest := by
        split at h
        · simp only [pem.Attempt.again.injEq] at h
          exact h.symm
        · split at h
          · simp only [pem.Attempt.again.injEq] at h
            exact h.symm
          · split at h
            · simp only [pem.Attempt.again.injEq] at h
              exact h.symm
            · split at h
              · simp only [pem.Attempt.again.injEq] at h
                exact h.symm
              · split at h
                · simp only [pem.Attempt.again.injEq] at h
                  exact h.symm
                · cases h
      rw [key]
      omega

/-- Every round of Decode consumes a BEGIN marker. -/
theorem pem.findStart_length (rest r : Bytes) (h : pem.findStart rest = some r) :
    r.length < rest.length := by
  unfold pem.findStart at h
  split at h
  · rename_i hp
    simp only [Option.some.injEq] at h
    have hpre : pem.pemStart.drop 1 <+: rest := List.isPrefixOf_iff_prefix.mp hp
    have hlen := hpre.length_le
    rw [← h, List.length_drop]
    rw [pem.pemStart_eq] at hlen ⊢
    simp only [List.drop_succ_cons, List.drop_zero, List.length_cons, List.length_nil] at hlen ⊢
    omega
  · unfold bytes.Cut at h
    cases hi : bytes.Index rest pem.pemStart with
    | none => rw [hi] at h; cases h
    | some i =>
      rw [hi] at h
      simp only [Option.some.injEq] at h
      have hlen := bytes.index_add_length_le _ _ _ hi
      rw [← h, List.length_drop]
      rw [pem.pemStart_eq] at hlen ⊢
      simp only [List.length_cons, List.length_nil] at hlen ⊢
      omega

/-- The loop of Decode never runs out of fuel: with a fuel above the length
of the input the result does not depend on the fuel. -/
theorem pem.decodeLoop_fuel (n m : Nat) (rest : Bytes)
    (hn : rest.length < n) (hm : rest.length < m) :
    pem.decodeLoop n rest = pem.decodeLoop m rest := by
  induction n generalizing m rest with
  | zero => omega
  | succ n ih =>
    obtain ⟨k, rfl⟩ : ∃ k, m = k + 1 := ⟨m - 1, by omega⟩
    rw [pem.decodeLoop, pem.decodeLoop]
    cases hs : pem.findStart rest with
    | none => rfl
    | some r =>
      simp only
      have h1 := pem.findStart_length rest r hs
      cases hb : pem.block r with
      | found p rest1 => rfl
      | giveUp => rfl
      | again rest1 =>
        simp only
        have h2 := pem.block_again_length r rest1 hb
        exact ih k rest1 (by omega) (by omega)

/-- The marker search skips a line that stands before a BEGIN marker. -/
theorem bytes.indexFrom_skip_line (sep note tail : Bytes) (i : Nat)
    (hnote : 10 ∉ note) (hsep : (10 :: sep).isPrefixOf (10 :: tail) = true) :
    bytes.indexFrom (10 :: sep) (note ++ 10 :: tail) i = some (i + note.length) := by
  induction note generalizing i with
  | nil => simp [bytes.indexFrom, hsep]
  | cons a t ih =>
    have ha : a ≠ 10 := fun h => hnote (by simp [h])
    have ht : 10 ∉ t := fun h => hnote (by simp [h])
    have hp : (10 :: sep).isPrefixOf (a :: (t ++ 10 :: tail)) = false := by
      simp [List.isPrefixOf, ha, Ne.symm ha]
    rw [List.cons_append, bytes.indexFrom, hp]
    simp only [Bool.false_eq_true, if_false]
    rw [ih (i + 1) ht]
    simp only [List.length_cons]
    congr 1
    omega

/-- A line put in front of a content that opens with a BEGIN marker is
skipped: the search for the start of a block ends at the same place. -/
theorem pem.findStart_skip_line (note content : Bytes)
    (hbegin : ascii "-----BEGIN " <+: content)
    (hnote : 10 ∉ note) (hdash : note.head? ≠ some 45) :
    pem.findStart (note ++ 10 :: content) = pem.findStart content := by
  have hb : (pem.pemStart.drop 1).isPrefixOf content = true := by
    rw [List.isPrefixOf_iff_prefix]
    exact hbegin
  have h1 : bytes.HasPrefix content (pem.pemStart.drop 1) = true := hb
  have h2 : bytes.HasPrefix (note ++ 10 :: content) (pem.pemStart.drop 1) = false := by
    rw [pem.pemStart_eq]
    cases note with
    | nil => simp [bytes.HasPrefix, List.isPrefixOf]
    | cons a t =>
      have ha : a ≠ 45 := fun h => hdash (by simp [h])
      simp [bytes.HasPrefix, List.isPrefixOf, ha, Ne.symm ha]
  have h3 : bytes.Index (note ++ 10 :: content) pem.pemStart = some note.length := by
    have := bytes.indexFrom_skip_line (pem.pemStart.drop 1) note content 0 hnote
      (by simpa [List.isPrefixOf] using hb)
    simpa [bytes.Index, pem.pemStart_eq] using this
  simp only [pem.findStart, h1, h2, bytes.Cut, h3, if_true]
  simp [pem.pemStart_eq]

/-- A line put in front of a content that opens with a BEGIN marker does not
change the block that Decode finds, nor the remainder. -/
theorem pem.Decode_skip_line (note content : Bytes) (p : pem.Block) (rest : Bytes)
    (hbegin : ascii "-----BEGIN " <+: content)
    (hnote : 10 ∉ note) (hdash : note.head? ≠ some 45)
    (h : pem.Decode content = (some p, rest)) :
    pem.Decode (note ++ 10 :: content) = (some p, rest) := by
  have hloop : pem.decodeLoop (content.length + 1) content = some (p, rest) := by
    unfold pem.Decode at h
    cases hl : pem.decodeLoop (content.length + 1) content with
    | none => rw [hl] at h; simp at h
    | some x =>
      rw [hl] at h
      obtain ⟨q, r⟩ := x
      simp only [Prod.mk.injEq, Option.some.injEq] at h
      rw [h.1, h.2]
  have hloop2 : pem.decodeLoop ((note ++ 10 :: content).length + 1) (note ++ 10 :: content)
      = some (p, rest) := by
    rw [pem.decodeLoop, pem.findStart_skip_line note content hbegin hnote hdash]
    rw [pem.decodeLoop] at hloop
    cases hs : pem.findStart content with
    | none => rw [hs] at hloop; cases hloop
    | some r =>
      rw [hs] at hloop
      simp only at hloop ⊢
      cases hb : pem.block r with
      | found q rest1 => rw [hb] at hloop; simpa using hloop
      | again rest1 =>
        rw [hb] at hloop
        simp only at hloop ⊢
        exact pem.decodeLoop_mono hloop _ (by simp only [List.length_append, List.length_cons]; omega)
      | giveUp => rw [hb] at hloop; cases hloop
  unfold pem.Decode
  rw [hloop2]

/-- A line without a carriage return put in front of a content brings no
CR LF sequence. -/
theorem crlf_skip_line (note content : Bytes) (hnote : 13 ∉ note)
    (h : ¬ [13, 10] <:+: content) : ¬ [13, 10] <:+: note ++ 10 :: content := by
  induction note with
  | nil =>
    rw [List.nil_append, List.infix_cons_iff]
    rintro (hp | hi)
    · have := List.isPrefixOf_iff_prefix.mpr hp
      simp [List.isPrefixOf] at this
    · exact h hi
  | cons a t ih =>
    have ha : a ≠ 13 := fun h => hnote (by simp [h])
    have ht : 13 ∉ t := fun h => hnote (by simp [h])
    rw [List.cons_append, List.infix_cons_iff]
    rintro (hp | hi)
    · have := List.isPrefixOf_iff_prefix.mpr hp
      simp [List.isPrefixOf, Ne.symm ha] at this
    · exact ih ht hi

/-! ## loadCertificateFile -/

/-- The index expression of line 169 is in range for a non-empty content and
yields its last byte. -/
theorem lastByte_cases (content : Bytes) (hne : content ≠ []) :
    ∃ last, content[content.length - 1]? = some last ∧ content.getLast? = some last := by
  rw [← List.getLast?_eq_getElem?]
  cases h : content.getLast? with
  | none => exact absurd (List.getLast?_eq_none_iff.mp h) hne
  | some last => exact ⟨last, rfl, rfl⟩

/-- The run of loadCertificateFile on a content that passes every check. -/
theorem loadCertificateFile_of_valid {Cert : Type} (W : World Cert) (url file : String)
    (content : Bytes) (blk : pem.Block) (cert : Cert)
    (hread : W.ReadFile file = .ok content)
    (hcrlf : bytes.Contains content (ascii "\r\n") = false)
    (hpem : pem.Decode content = (some blk, []))
    (htype : blk.type = ascii "CERTIFICATE")
    (hparse : W.ParseCertificate blk.bytes = .ok cert) :
    loadCertificateFile W url file =
      .ret ⟨if content.getLast? = some 10 then content else content ++ [10], some cert, none⟩ := by
  obtain ⟨last, hidx, hlast⟩ := lastByte_cases content (pem.Decode_ne_nil hpem)
  unfold loadCertificateFile
  simp only [hread, hcrlf, hpem, htype, hparse, hidx, hlast]
  by_cases h10 : last = 10
  · simp [h10]
  · simp [h10]

/-- The run of loadCertificateFile on a content that fails a check always ends
in `return nil, nil, err`; it never panics. -/
theorem loadCertificateFile_cases {Cert : Type} (W : World Cert) (url file : String) :
    (∃ e, loadCertificateFile W url file = .ret ⟨[], none, some e⟩) ∨
    (∃ content blk cert, W.ReadFile file = .ok content ∧
      bytes.Contains content (ascii "\r\n") = false ∧
      pem.Decode content = (some blk, []) ∧ blk.type = ascii "CERTIFICATE" ∧
      W.ParseCertificate blk.bytes = .ok cert ∧
      loadCertificateFile W url file =
        .ret ⟨if content.getLast? = some 10 then content else content ++ [10],
          some cert, none⟩) := by
  cases hread : W.ReadFile file with
  | error err =>
    left; exact ⟨.readFailed url file err, by simp [loadCertificateFile, hread]⟩
  | ok content =>
    cases hcrlf : bytes.Contains content (ascii "\r\n") with
    | true => left; exact ⟨.crlf url file, by simp [loadCertificateFile, hread, hcrlf]⟩
    | false =>
      rcases hpem : pem.Decode content with ⟨_ | blk, rest⟩
      · left; exact ⟨.notPEM url file, by simp [loadCertificateFile, hread, hcrlf, hpem]⟩
      · by_cases htype : blk.type = ascii "CERTIFICATE"
        · cases hparse : W.ParseCertificate blk.bytes with
          | error err =>
            left
            exact ⟨.parseFailed url file err,
              by simp [loadCertificateFile, hread, hcrlf, hpem, htype, hparse]⟩
          | ok cert =>
            cases rest with
            | nil =>
              right
              exact ⟨content, blk, cert, rfl, hcrlf, hpem, htype, hparse,
                loadCertificateFile_of_valid W url file content blk cert hread hcrlf hpem
                  htype hparse⟩
            | cons a t =>
              left
              exact ⟨.remainder url file (t.length + 1),
                by simp [loadCertificateFile, hread, hcrlf, hpem, htype, hparse]⟩
        · left
          exact ⟨.wrongType url file blk.type,
            by simp [loadCertificateFile, hread, hcrlf, hpem, htype]⟩

/-- C1: a readable file without CRLF whose content PEM-decodes to a
CERTIFICATE block with an empty remainder and whose payload parses is accepted:
no error, the bytes of the file (followed by one line feed when they do not
end in one), and the certificate parsed from the payload of the block. -/
theorem loadCertificateFile_valid {Cert : Type} (W : World Cert) (url file : String)
    (content : Bytes) (blk : pem.Block) (cert : Cert)
    (hread : W.ReadFile file = .ok content)
    (hcrlf : ¬ [13, 10] <:+: content)
    (hpem : pem.Decode content = (some blk, []))
    (htype : blk.type = ascii "CERTIFICATE")
    (hparse : W.ParseCertificate blk.bytes = .ok cert) :
    loadCertificateFile W url file =
      .ret ⟨if content.getLast? = some 10 then content else content ++ [10], some cert, none⟩ := by
  have hc : bytes.Contains content (ascii "\r\n") = false := by
    rw [ascii_crlf, ← Bool.not_eq_true, bytes.Contains_iff]
    exact hcrlf
  exact loadCertificateFile_of_valid W url file content blk cert hread hc hpem htype hparse

theorem loadCertificateFile_valid_witness :
    loadCertificateFile sampleWorld "http://ca.example/r3" "b.pem" =
      .ret ⟨ascii "-----BEGIN CERTIFICATE-----\nMAE=\n-----END CERTIFICATE-----\n",
        some [48, 1], none⟩ :=
  loadCertificateFile_valid sampleWorld "http://ca.example/r3" "b.pem"
    (ascii "-----BEGIN CERTIFICATE-----\nMAE=\n-----END CERTIFICATE-----")
    ⟨ascii "CERTIFICATE", [48, 1]⟩ [48, 1] rfl (by decide) (by decide) (by decide) rfl

/-- C4: a content with at least one CR LF sequence is rejected with the CRLF
error, nil bytes and a nil certificate, whatever the rest of the content is. -/
theorem loadCertificateFile_crlf {Cert : Type} (W : World Cert) (url file : String)
    (content : Bytes)
    (hread : W.ReadFile file = .ok content)
    (hcrlf : [13, 10] <:+: content) :
    loadCertificateFile W url file = .ret ⟨[], none, some (.crlf url file)⟩ := by
  have hc : bytes.Contains content (ascii "\r\n") = true := by
    rw [ascii_crlf, bytes.Contains_iff]
    exact hcrlf
  simp [loadCertificateFile, hread, hc]

theorem loadCertificateFile_crlf_witness :
    loadCertificateFile sampleWorld "http://ca.example/r3" "crlf.pem" =
      .ret ⟨[], none, some (.crlf "http://ca.example/r3" "crlf.pem")⟩ :=
  loadCertificateFile_crlf sampleWorld "http://ca.example/r3" "crlf.pem"
    (ascii "-----BEGIN CERTIFICATE-----\r\nMAA=\r\n-----END CERTIFICATE-----\r\n")
    rfl (by decide)

/-- C5: when PEM decoding leaves a non-empty remainder after the first block
the file is rejected with nil bytes and a nil certificate; when that block is
a CERTIFICATE block that parses and the content has no CRLF, the error is the
one about the unused remainder. -/
theorem loadCertificateFile_remainder {Cert : Type} (W : World Cert) (url file : String)
    (content : Bytes) (blk : pem.Block) (rest : Bytes)
    (hread : W.ReadFile file = .ok content)
    (hpem : pem.Decode content = (some blk, rest))
    (hrest : rest ≠ []) :
    (∃ e, loadCertificateFile W url file = .ret ⟨[], none, some e⟩) ∧
    (∀ cert, ¬ [13, 10] <:+: content → blk.type = ascii "CERTIFICATE" →
      W.ParseCertificate blk.bytes = .ok cert →
      loadCertificateFile W url file =
        .ret ⟨[], none, some (.remainder url file rest.length)⟩) := by
  have hlen : rest.length ≠ 0 := by
    cases rest with
    | nil => exact absurd rfl hrest
    | cons a t => simp
  constructor
  · rcases loadCertificateFile_cases W url file with h | ⟨c, b, cert, hr, _, hp, _, _, _⟩
    · exact h
    · rw [hread] at hr
      cases hr
      rw [hpem] at hp
      cases hp
      exact absurd rfl hrest
  · intro cert hcrlf htype hparse
    have hc : bytes.Contains content (ascii "\r\n") = false := by
      rw [ascii_crlf, ← Bool.not_eq_true, bytes.Contains_iff]
      exact hcrlf
    simp [loadCertificateFile, hread, hc, hpem, htype, hparse, hlen]

theorem loadCertificateFile_remainder_witness :
    (∃ e, loadCertificateFile sampleWorld "http://ca.example/r3" "two.pem" =
      .ret ⟨[], none, some e⟩) ∧
    (∀ cert, ¬ [13, 10] <:+: samplePEM ++ samplePEM →
      (⟨ascii "CERTIFICATE", [48, 0]⟩ : pem.Block).type = ascii "CERTIFICATE" →
      sampleWorld.ParseCertificate (⟨ascii "CERTIFICATE", [48, 0]⟩ : pem.Block).bytes
        = .ok cert →
      loadCertificateFile sampleWorld "http://ca.example/r3" "two.pem" =
        .ret ⟨[], none,
          some (.remainder "http://ca.example/r3" "two.pem" samplePEM.length)⟩) :=
  loadCertificateFile_remainder sampleWorld "http://ca.example/r3" "two.pem"
    (samplePEM ++ samplePEM) ⟨ascii "CERTIFICATE", [48, 0]⟩ samplePEM rfl (by decide)
    (by decide)

/-- C9: loadCertificateFile always returns, and it returns a nil error exactly
when every rule holds: the file is readable, its content has no CRLF and
PEM-decodes to a block of type CERTIFICATE with an empty remainder, and the
payload of the block parses; otherwise the bytes and the certificate it
returns are nil. -/
theorem loadCertificateFile_succeeds_iff {Cert : Type} (W : World Cert) (url file : String) :
    ∃ r, loadCertificateFile W url file = .ret r ∧
      (r.err = none ↔
        ∃ content blk cert, W.ReadFile file = .ok content ∧ ¬ [13, 10] <:+: content ∧
          pem.Decode content = (some blk, []) ∧ blk.type = ascii "CERTIFICATE" ∧
          W.ParseCertificate blk.bytes = .ok cert) ∧
      (r.err ≠ none → r.pemBytes = [] ∧ r.cert = none) ∧
      (r.err = none → r.pemBytes ≠ [] ∧ r.cert ≠ none) := by
  rcases loadCertificateFile_cases W url file with ⟨e, h⟩ | ⟨c, b, cert, hr, hc, hp, ht, hx, h⟩
  · refine ⟨_, h, ⟨fun he => (by cases he), ?_⟩, fun _ => ⟨rfl, rfl⟩, fun he => (by cases he)⟩
    rintro ⟨c, b, cert, hr, hc, hp, ht, hx⟩
    have hc2 : bytes.Contains c (ascii "\r\n") = false := by
      rw [ascii_crlf, ← Bool.not_eq_true, bytes.Contains_iff]
      exact hc
    have h2 := loadCertificateFile_of_valid W url file c b cert hr hc2 hp ht hx
    rw [h] at h2
    simp at h2
  · refine ⟨_, h, ⟨fun _ => ⟨c, b, cert, hr, ?_, hp, ht, hx⟩, fun _ => rfl⟩,
      fun he => absurd rfl he, fun _ => ⟨?_, by simp⟩⟩
    · rw [← bytes.Contains_iff, ← ascii_crlf, hc]
      simp
    · have hne := pem.Decode_ne_nil hp
      split <;> simp [hne]

/-- C8: the code does not keep bytes before the BEGIN line out.  Whenever a
file that opens with a BEGIN marker is accepted, the file made of any line
`note` (without line feed or carriage return, not opening with a dash), a line
feed and the same content is accepted as well, with the same certificate, and
the bytes returned for it open with that line: they carry more than the one
PEM block. -/
theorem loadCertificateFile_leading_line {Cert : Type} (W : World Cert)
    (url file file2 : String) (content note out : Bytes) (cert : Cert)
    (hread : W.ReadFile file = .ok content)
    (hread2 : W.ReadFile file2 = .ok (note ++ 10 :: content))
    (hbegin : ascii "-----BEGIN " <+: content)
    (hnote : 10 ∉ note ∧ 13 ∉ note ∧ note.head? ≠ some 45)
    (hok : loadCertificateFile W url file = .ret ⟨out, some cert, none⟩) :
    loadCertificateFile W url file2 = .ret ⟨note ++ 10 :: out, some cert, none⟩ := by
  rcases loadCertificateFile_cases W url file with ⟨e, h⟩ | ⟨c, b, cert1, hr, hc, hp, ht, hx, h⟩
  · rw [h] at hok
    simp at hok
  · rw [hread] at hr
    cases hr
    rw [h] at hok
    simp only [Call.ret.injEq, FileResult.mk.injEq, Option.some.injEq, and_true] at hok
    obtain ⟨hout, hcert⟩ := hok
    subst hcert
    have hne : content ≠ [] := pem.Decode_ne_nil hp
    have hc2 : bytes.Contains (note ++ 10 :: content) (ascii "\r\n") = false := by
      rw [ascii_crlf, ← Bool.not_eq_true, bytes.Contains_iff]
      apply crlf_skip_line note content hnote.2.1
      rw [← bytes.Contains_iff, ← ascii_crlf, hc]
      simp
    have hp2 := pem.Decode_skip_line note content b [] hbegin hnote.1 hnote.2.2 hp
    rw [loadCertificateFile_of_valid W url file2 _ b cert1 hread2 hc2 hp2 ht hx]
    have hlast : (note ++ 10 :: content).getLast? = content.getLast? := by
      obtain ⟨a, t, rfl⟩ := List.exists_cons_of_ne_nil hne
      rw [List.getLast?_append, List.getLast?_cons_cons]
      cases hl : (a :: t).getLast? with
      | none => simp at hl
      | some z => rfl
    rw [hlast, ← hout]
    split <;> simp

theorem loadCertificateFile_leading_line_witness :
    loadCertificateFile sampleWorld "http://ca.example/r3" "note.pem" =
      .ret ⟨ascii "x" ++ 10 :: samplePEM, some [48, 0], none⟩ :=
  loadCertificateFile_leading_line sampleWorld "http://ca.example/r3" "a.pem" "note.pem"
    samplePEM (ascii "x") samplePEM [48, 0] rfl rfl (by decide) (by decide) (by decide)

/-! ## Maps -/

theorem mapGet_mapSet_self {V : Type} (m : GoMap V) (k : String) (v : V) :
    mapGet (mapSet m k v) k = some v := by
  induction m with
  | nil => simp [mapSet, mapGet]
  | cons e m ih =>
    obtain ⟨k1, v1⟩ := e
    by_cases h : k1 = k
    · simp [mapSet, mapGet, h]
    · simp [mapSet, mapGet, h, ih]

theorem mapGet_mapSet_ne {V : Type} (m : GoMap V) (k k2 : String) (v : V) (hne : k2 ≠ k) :
    mapGet (mapSet m k v) k2 = mapGet m k2 := by
  induction m with
  | nil => simp [mapSet, mapGet, Ne.symm hne]
  | cons e m ih =>
    obtain ⟨k1, v1⟩ := e
    by_cases h : k1 = k
    · subst h
      simp [mapSet, mapGet, Ne.symm hne]
    · by_cases h2 : k1 = k2
      · subst h2
        simp [mapSet, mapGet, h]
      · simp [mapSet, mapGet, h, h2, ih]

theorem mapGet_eq_none_iff {V : Type} (m : GoMap V) (k : String) :
    mapGet m k = none ↔ k ∉ mapKeys m := by
  induction m with
  | nil => simp [mapGet, mapKeys]
  | cons e m ih =>
    obtain ⟨k1, v1⟩ := e
    by_cases h : k1 = k
    · simp [mapGet, mapKeys, h]
    · have ih2 : mapGet m k = none ↔ k ∉ List.map Prod.fst m := ih
      simp [mapGet, mapKeys, h, ih2, Ne.symm h]

theorem mapGet_isSome_iff {V : Type} (m : GoMap V) (k : String) :
    (∃ v, mapGet m k = some v) ↔ k ∈ mapKeys m := by
  rw [← not_iff_not, ← mapGet_eq_none_iff]
  cases mapGet m k <;> simp

theorem mem_mapKeys_mapSet {V : Type} (m : GoMap V) (k k2 : String) (v : V) :
    k2 ∈ mapKeys (mapSet m k v) ↔ k2 = k ∨ k2 ∈ mapKeys m := by
  rw [← mapGet_isSome_iff, ← mapGet_isSome_iff]
  by_cases h : k2 = k
  · subst h
    simp [mapGet_mapSet_self]
  · simp [mapGet_mapSet_ne m k k2 v h, h]

theorem nodup_mapKeys_mapSet {V : Type} (m : GoMap V) (k : String) (v : V)
    (h : (mapKeys m).Nodup) : (mapKeys (mapSet m k v)).Nodup := by
  induction m with
  | nil => simp [mapSet, mapKeys]
  | cons e m ih =>
    obtain ⟨k1, v1⟩ := e
    have h1 : k1 ∉ mapKeys m := (List.nodup_cons.mp h).1
    have h2 : (mapKeys m).Nodup := (List.nodup_cons.mp h).2
    by_cases hk : k1 = k
    · subst hk
      simpa [mapSet, mapKeys] using h
    · have hmem : k1 ∉ mapKeys (mapSet m k v) := by
        rw [mem_mapKeys_mapSet]
        rintro (h3 | h3)
        · exact hk h3
        · exact h1 h3
      simp only [mapSet, hk, if_false]
      exact List.nodup_cons.mpr ⟨hmem, ih h2⟩

theorem mapGet_of_mem {V : Type} (m : GoMap V) (k : String) (v : V)
    (hnd : (mapKeys m).Nodup) (hmem : (k, v) ∈ m) : mapGet m k = some v := by
  induction m with
  | nil => cases hmem
  | cons e m ih =>
    obtain ⟨k1, v1⟩ := e
    have h1 : k1 ∉ mapKeys m := (List.nodup_cons.mp hnd).1
    have h2 : (mapKeys m).Nodup := (List.nodup_cons.mp hnd).2
    rcases List.mem_cons.mp hmem with heq | hin
    · cases heq
      simp [mapGet]
    · have hk : k1 ≠ k := by
        rintro rfl
        exact h1 (List.mem_map.mpr ⟨(k1, v), hin, rfl⟩)
      simp [mapGet, hk, ih h2 hin]

theorem mem_of_mapGet {V : Type} (m : GoMap V) (k : String) (v : V)
    (h : mapGet m k = some v) : (k, v) ∈ m := by
  induction m with
  | nil => simp [mapGet] at h
  | cons e m ih =>
    obtain ⟨k1, v1⟩ := e
    by_cases hk : k1 = k
    · simp [mapGet, hk] at h
      simp [hk, h]
    · simp [mapGet, hk] at h
      exact List.mem_cons_of_mem _ (ih h)

/-- Reading a map does not depend on the order in which its entries stand. -/
theorem mapGet_perm {V : Type} (m m2 : GoMap V) (k : String) (hp : m.Perm m2)
    (hnd : (mapKeys m).Nodup) : mapGet m k = mapGet m2 k := by
  have hnd2 : (mapKeys m2).Nodup := (hp.map Prod.fst).nodup_iff.mp hnd
  cases h : mapGet m k with
  | some v => exact (mapGet_of_mem m2 k v hnd2 (hp.subset (mem_of_mapGet m k v h))).symm
  | none =>
    cases h2 : mapGet m2 k with
    | none => rfl
    | some v =>
      rw [mapGet_of_mem m k v hnd (hp.symm.subset (mem_of_mapGet m2 k v h2))] at h
      cases h

/-! ## loadCertificateChains -/

/-- The call of loadCertificateFile always returns, with the three results
named by `normalize`, `fileCert` and `fileErr`. -/
theorem loadCertificateFile_ret {Cert : Type} (W : World Cert) (url file : String) :
    loadCertificateFile W url file =
      .ret ⟨normalize W url file, fileCert W url file, fileErr W url file⟩ := by
  rcases loadCertificateFile_cases W url file with ⟨e, h⟩ | ⟨c, b, cert, _, _, _, _, _, h⟩ <;>
    simp [normalize, fileCert, fileErr, h]

/-- An accepted file: its content passed every check. -/
theorem fileErr_eq_none {Cert : Type} (W : World Cert) (url file : String)
    (h : fileErr W url file = none) :
    ∃ content blk cert, W.ReadFile file = .ok content ∧
      bytes.Contains content (ascii "\r\n") = false ∧
      pem.Decode content = (some blk, []) ∧ blk.type = ascii "CERTIFICATE" ∧
      W.ParseCertificate blk.bytes = .ok cert ∧
      normalize W url file = (if content.getLast? = some 10 then content else content ++ [10]) ∧
      fileCert W url file = some cert := by
  rcases loadCertificateFile_cases W url file with ⟨e, h2⟩ | ⟨c, b, cert, hr, hc, hp, ht, hx, h2⟩
  · simp [fileErr, h2] at h
  · exact ⟨c, b, cert, hr, hc, hp, ht, hx, by simp [normalize, h2], by simp [fileCert, h2]⟩

theorem chainOf_length_pos {Cert : Type} (W : World Cert) (url : String) (files : List String) :
    0 < (chainOf W url files).length ↔ files ≠ [] := by
  cases files <;> simp [chainOf]

/-- The loop over the files of one issuer when every file is accepted. -/
theorem certFilesLoop_ok {Cert : Type} (W : World Cert) (url : String) (files : List String)
    (i : Nat) (buffer : Bytes) (certs : List (Option Cert))
    (h : ∀ f ∈ files, fileErr W url f = none) :
    certFilesLoop W url files i buffer certs =
      .done (buffer ++ chainOf W url files,
        if i = 0 then certs ++ directCert W (url, files) else certs) := by
  induction files generalizing i buffer certs with
  | nil => simp [certFilesLoop, chainOf, directCert]
  | cons c more ih =>
    have hc : fileErr W url c = none := h c (by simp)
    rw [certFilesLoop, loadCertificateFile_ret]
    simp only [hc]
    rw [ih (i + 1) _ _ (fun f hf => h f (by simp [hf]))]
    simp [chainOf, directCert]

/-- The loop over the files of one issuer when some file is rejected. -/
theorem certFilesLoop_err {Cert : Type} (W : World Cert) (url : String) (files : List String)
    (i : Nat) (buffer : Bytes) (certs : List (Option Cert))
    (h : ∃ f ∈ files, fileErr W url f ≠ none) :
    ∃ f ∈ files, ∃ e, fileErr W url f = some e ∧
      certFilesLoop W url files i buffer certs = .returned e := by
  induction files generalizing i buffer certs with
  | nil => simp at h
  | cons c more ih =>
    rw [certFilesLoop, loadCertificateFile_ret]
    cases hc : fileErr W url c with
    | some e => exact ⟨c, by simp, e, hc, rfl⟩
    | none =>
      obtain ⟨f, hf, hfe⟩ := h
      have hf2 : f ∈ more := by
        rcases List.mem_cons.mp hf with rfl | hm
        · exact absurd hc hfe
        · exact hm
      obtain ⟨g, hg, e, hge, hloop⟩ := ih (i + 1) ((buffer ++ [10]) ++ normalize W url c)
        (if i = 0 then certs ++ [fileCert W url c] else certs) ⟨f, hf2, hfe⟩
      exact ⟨g, by simp [hg], e, hge, hloop⟩

/-- The loop over the issuers when every entry is in order. -/
theorem issuersLoop_ok {Cert : Type} (W : World Cert) (req : Bool)
    (cfg : GoMap (List String)) (results : GoMap Bytes) (certs : List (Option Cert))
    (h : ∀ e ∈ cfg, entryOk W req e) :
    issuersLoop W req cfg results certs =
      .done (storeChains W cfg results, certs ++ cfg.flatMap (directCert W)) := by
  induction cfg generalizing results certs with
  | nil => simp [issuersLoop, storeChains]
  | cons e more ih =>
    obtain ⟨url, files⟩ := e
    obtain ⟨h1, h2⟩ := h (url, files) (by simp)
    have hreq : (req && files.length == 0) = false := by
      cases req with
      | false => rfl
      | true =>
        have := h1 rfl
        cases files with
        | nil => exact absurd rfl this
        | cons a t => rfl
    rw [issuersLoop, hreq, certFilesLoop_ok W url files 0 [] certs h2]
    simp only [Bool.false_eq_true, if_false, if_true, List.nil_append]
    rw [ih _ _ (fun e he => h e (by simp [he]))]
    have hlen : (chainOf W url files).length > 0 ↔ files ≠ [] := chainOf_length_pos W url files
    by_cases hf : files = []
    · subst hf
      simp [storeChains, chainOf, directCert]
    · simp [storeChains, hf, hlen.mpr hf, List.append_assoc]

/-- The loop over the issuers when some entry is not in order. -/
theorem issuersLoop_err {Cert : Type} (W : World Cert) (req : Bool)
    (cfg : GoMap (List String)) (results : GoMap Bytes) (certs : List (Option Cert))
    (h : ∃ e ∈ cfg, ¬ entryOk W req e) :
    ∃ err, issuersLoop W req cfg results certs = .returned err := by
  induction cfg generalizing results certs with
  | nil => simp at h
  | cons e more ih =>
    obtain ⟨url, files⟩ := e
    rw [issuersLoop]
    by_cases hreq : (req && files.length == 0) = true
    · rw [if_pos hreq]
      exact ⟨_, rfl⟩
    · rw [if_neg hreq]
      by_cases hfiles : ∀ f ∈ files, fileErr W url f = none
      · rw [certFilesLoop_ok W url files 0 [] certs hfiles]
        simp only
        apply ih
        obtain ⟨e2, he2, hbad⟩ := h
        rcases List.mem_cons.mp he2 with rfl | hm
        · exfalso
          apply hbad
          refine ⟨fun hr hnil => hreq ?_, hfiles⟩
          simp only at hnil
          simp [hr, hnil]
        · exact ⟨e2, hm, hbad⟩
      · have hex : ∃ f ∈ files, fileErr W url f ≠ none := by
          by_contra hcon
          apply hfiles
          intro f hf
          by_contra hne
          exact hcon ⟨f, hf, hne⟩
        obtain ⟨f, _, e, _, hloop⟩ := certFilesLoop_err W url files 0 [] certs hex
        rw [hloop]
        exact ⟨e, rfl⟩

/-- What loadCertificateChains returns on a configuration in order, and that
it returns an error on any other. -/
theorem loadCertificateChains_cases {Cert : Type} (W : World Cert)
    (cfg : GoMap (List String)) (req : Bool) :
    ((∀ e ∈ cfg, entryOk W req e) ∧
      loadCertificateChains W cfg req =
        .ret ⟨some (storeChains W cfg []), cfg.flatMap (directCert W), none⟩) ∨
    ((∃ e ∈ cfg, ¬ entryOk W req e) ∧
      ∃ err, loadCertificateChains W cfg req = .ret ⟨none, [], some err⟩) := by
  by_cases h : ∀ e ∈ cfg, entryOk W req e
  · left
    refine ⟨h, ?_⟩
    rw [loadCertificateChains, issuersLoop_ok W req cfg [] [] h]
    simp
  · right
    have hex : ∃ e ∈ cfg, ¬ entryOk W req e := by
      by_contra hcon
      apply h
      intro e he
      by_contra hne
      exact hcon ⟨e, he, hne⟩
    refine ⟨hex, ?_⟩
    obtain ⟨err, hloop⟩ := issuersLoop_err W req cfg [] [] hex
    exact ⟨err, by rw [loadCertificateChains, hloop]⟩

theorem not_entryOk_iff {Cert : Type} (W : World Cert) (req : Bool) (e : String × List String) :
    ¬ entryOk W req e ↔ (req = true ∧ e.2 = []) ∨ ∃ f ∈ e.2, fileErr W e.1 f ≠ none := by
  unfold entryOk
  constructor
  · intro h
    by_cases h1 : req = true ∧ e.2 = []
    · exact Or.inl h1
    · right
      by_contra hcon
      apply h
      refine ⟨fun hr hnil => h1 ⟨hr, hnil⟩, fun f hf => ?_⟩
      by_contra hne
      exact hcon ⟨f, hf, hne⟩
  · rintro (⟨hr, hnil⟩ | ⟨f, hf, hne⟩) ⟨h1, h2⟩
    · exact h1 hr hnil
    · exact hne (h2 f hf)

theorem storeChains_get_of_not_mem {Cert : Type} (W : World Cert) (cfg : GoMap (List String))
    (results : GoMap Bytes) (url : String) (h : url ∉ mapKeys cfg) :
    mapGet (storeChains W cfg results) url = mapGet results url := by
  induction cfg generalizing results with
  | nil => rfl
  | cons e more ih =>
    obtain ⟨u, fs⟩ := e
    have hu : url ≠ u := fun he => h (by simp [mapKeys, he])
    have hm : url ∉ mapKeys more := fun hm => h (by
      simp only [mapKeys, List.map_cons, List.mem_cons]
      exact Or.inr hm)
    rw [storeChains, ih _ hm]
    split
    · rfl
    · exact mapGet_mapSet_ne results u url _ hu

/-- The chain stored for an issuer of a configuration with distinct keys. -/
theorem storeChains_get {Cert : Type} (W : World Cert) (cfg : GoMap (List String))
    (results : GoMap Bytes) (url : String) (files : List String)
    (hnd : (mapKeys cfg).Nodup) (hmem : (url, files) ∈ cfg) :
    mapGet (storeChains W cfg results) url =
      if files = [] then mapGet results url else some (chainOf W url files) := by
  induction cfg generalizing results with
  | nil => cases hmem
  | cons e more ih =>
    obtain ⟨u, fs⟩ := e
    have h1 : u ∉ mapKeys more := (List.nodup_cons.mp hnd).1
    have h2 : (mapKeys more).Nodup := (List.nodup_cons.mp hnd).2
    rcases List.mem_cons.mp hmem with heq | hin
    · cases heq
      rw [storeChains, storeChains_get_of_not_mem W more _ url h1]
      by_cases hf : files = []
      · simp [hf]
      · simp [hf, mapGet_mapSet_self]
    · have hu : url ≠ u := by
        rintro rfl
        exact h1 (List.mem_map.mpr ⟨(url, files), hin, rfl⟩)
      rw [storeChains, ih _ h2 hin]
      by_cases hf : files = []
      · simp only [hf, if_true]
        split
        · rfl
        · exact mapGet_mapSet_ne results u url _ hu
      · simp [hf]

/-- C2: when loadCertificateChains succeeds on a configuration (a map, so with
distinct keys), the chain stored for an issuer with the file list f1, ..., fn
(n at least 1) is a line feed and normalize(f1), then a line feed and
normalize(f2), and so on in the configured order; the issuer certificates are,
entry by entry, the certificate of the first file of each non-empty file list,
and for this issuer that is the certificate parsed from the payload of the
PEM block of f1 and nothing else. -/
theorem loadCertificateChains_chain {Cert : Type} (W : World Cert)
    (cfg : GoMap (List String)) (req : Bool) (url f1 : String) (more : List String)
    (results : GoMap Bytes) (certs : List (Option Cert))
    (hnd : (mapKeys cfg).Nodup)
    (hmem : (url, f1 :: more) ∈ cfg)
    (hok : loadCertificateChains W cfg req = .ret ⟨some results, certs, none⟩) :
    mapGet results url = some (chainOf W url (f1 :: more)) ∧
    (∀ f ∈ f1 :: more, loadCertificateFile W url f =
      .ret ⟨normalize W url f, fileCert W url f, none⟩) ∧
    certs = cfg.flatMap (directCert W) ∧
    ∃ content blk cert, W.ReadFile f1 = .ok content ∧ pem.Decode content = (some blk, []) ∧
      W.ParseCertificate blk.bytes = .ok cert ∧
      directCert W (url, f1 :: more) = [some cert] := by
  rcases loadCertificateChains_cases W cfg req with ⟨hall, h⟩ | ⟨_, err, h⟩
  · rw [h] at hok
    simp only [Call.ret.injEq, ChainsResult.mk.injEq, Option.some.injEq, and_true] at hok
    obtain ⟨hres, hcerts⟩ := hok
    have hfiles := (hall (url, f1 :: more) hmem).2
    refine ⟨?_, ?_, hcerts.symm, ?_⟩
    · rw [← hres, storeChains_get W cfg [] url (f1 :: more) hnd hmem]
      simp
    · intro f hf
      rw [loadCertificateFile_ret, hfiles f hf]
    · obtain ⟨c, b, cert, hr, _, hp, _, hx, _, hcert⟩ :=
        fileErr_eq_none W url f1 (hfiles f1 (by simp))
      exact ⟨c, b, cert, hr, hp, hx, by simp [directCert, hcert]⟩
  · rw [h] at hok
    simp at hok

theorem loadCertificateChains_chain_witness :
    mapGet [("http://ca.example/r3", 10 :: samplePEM ++
        ascii "\n-----BEGIN CERTIFICATE-----\nMAE=\n-----END CERTIFICATE-----\n")]
      "http://ca.example/r3" =
      some (chainOf sampleWorld "http://ca.example/r3" ("a.pem" :: ["b.pem"])) ∧
    (∀ f ∈ "a.pem" :: ["b.pem"], loadCertificateFile sampleWorld "http://ca.example/r3" f =
      .ret ⟨normalize sampleWorld "http://ca.example/r3" f,
        fileCert sampleWorld "http://ca.example/r3" f, none⟩) ∧
    [some [48, 0]] = sampleConfig.CertificateChains.flatMap (directCert sampleWorld) ∧
    ∃ content blk cert, sampleWorld.ReadFile "a.pem" = .ok content ∧
      pem.Decode content = (some blk, []) ∧
      sampleWorld.ParseCertificate blk.bytes = .ok cert ∧
      directCert sampleWorld ("http://ca.example/r3", "a.pem" :: ["b.pem"]) = [some cert] :=
  loadCertificateChains_chain sampleWorld sampleConfig.CertificateChains true
    "http://ca.example/r3" "a.pem" ["b.pem"]
    [("http://ca.example/r3", 10 :: samplePEM ++
        ascii "\n-----BEGIN CERTIFICATE-----\nMAE=\n-----END CERTIFICATE-----\n")]
    [some [48, 0]] (by decide) (by decide) (by decide)

/-- C3: loadCertificateChains always returns; it returns an error exactly when
requireAtLeastOneChain is set and some issuer has an empty file list, or some
file of some issuer is rejected by loadCertificateFile; and with an error the
map and the issuer certificates it returns are nil. -/
theorem loadCertificateChains_error_iff {Cert : Type} (W : World Cert)
    (cfg : GoMap (List String)) (req : Bool) :
    ∃ r, loadCertificateChains W cfg req = .ret r ∧
      (r.err ≠ none ↔
        (req = true ∧ ∃ e ∈ cfg, e.2 = []) ∨
        ∃ e ∈ cfg, ∃ f ∈ e.2, ∃ rf, loadCertificateFile W e.1 f = .ret rf ∧ rf.err ≠ none) ∧
      (r.err ≠ none → r.results = none ∧ r.issuerCerts = []) ∧
      (r.err = none → r.results ≠ none) := by
  have hrej : ∀ (u f : String),
      (∃ rf, loadCertificateFile W u f = .ret rf ∧ rf.err ≠ none) ↔ fileErr W u f ≠ none := by
    intro u f
    rw [loadCertificateFile_ret]
    simp
  rcases loadCertificateChains_cases W cfg req with ⟨hall, h⟩ | ⟨⟨e, he, hbad⟩, err, h⟩
  · refine ⟨_, h, ⟨fun hne => absurd rfl hne, ?_⟩, fun hne => absurd rfl hne, fun _ => by simp⟩
    rintro (⟨hr, e, he, hnil⟩ | ⟨e, he, f, hf, hrf⟩)
    · exact absurd hnil ((hall e he).1 hr)
    · exact absurd ((hall e he).2 f hf) ((hrej e.1 f).mp hrf)
  · refine ⟨_, h, ⟨fun _ => ?_, fun _ => by simp⟩, fun _ => ⟨rfl, rfl⟩, fun hn => by simp at hn⟩
    rcases (not_entryOk_iff W req e).mp hbad with ⟨hr, hnil⟩ | ⟨f, hf, hne⟩
    · exact Or.inl ⟨hr, e, he, hnil⟩
    · exact Or.inr ⟨e, he, f, hf, (hrej e.1 f).mpr hne⟩

/-! ## The chain-set merge of main -/

theorem mem_mapKeys_of_mem {V : Type} (m : GoMap V) (k : String) (v : V) (h : (k, v) ∈ m) :
    k ∈ mapKeys m :=
  List.mem_map.mpr ⟨(k, v), h, rfl⟩

theorem defaultsLoop_get_of_not_mem (l : GoMap Bytes) (all : GoMap (List Bytes)) (k : String)
    (h : k ∉ mapKeys l) : mapGet (defaultsLoop l all) k = mapGet all k := by
  induction l generalizing all with
  | nil => rfl
  | cons e more ih =>
    obtain ⟨u, pemBytes⟩ := e
    have hu : k ≠ u := fun he => h (by simp [mapKeys, he])
    have hm : k ∉ mapKeys more := fun hm => h (by
      simp only [mapKeys, List.map_cons, List.mem_cons]
      exact Or.inr hm)
    rw [defaultsLoop, ih _ hm, mapGet_mapSet_ne _ _ _ _ hu]

/-- After the first loop of main every default chain stands alone in the chain
set of its issuer. -/
theorem defaultsLoop_get (l : GoMap Bytes) (all : GoMap (List Bytes)) (k : String)
    (chainPEM : Bytes) (hnd : (mapKeys l).Nodup) (hmem : (k, chainPEM) ∈ l) :
    mapGet (defaultsLoop l all) k = some [chainPEM] := by
  induction l generalizing all with
  | nil => cases hmem
  | cons e more ih =>
    obtain ⟨u, v⟩ := e
    have h1 : u ∉ mapKeys more := (List.nodup_cons.mp hnd).1
    have h2 : (mapKeys more).Nodup := (List.nodup_cons.mp hnd).2
    rcases List.mem_cons.mp hmem with heq | hin
    · cases heq
      rw [defaultsLoop, defaultsLoop_get_of_not_mem more _ k h1, mapGet_mapSet_self]
    · rw [defaultsLoop, ih _ h2 hin]

theorem defaultsLoop_keys (l : GoMap Bytes) (all : GoMap (List Bytes)) (k : String) :
    k ∈ mapKeys (defaultsLoop l all) ↔ k ∈ mapKeys l ∨ k ∈ mapKeys all := by
  induction l generalizing all with
  | nil => simp [defaultsLoop, mapKeys]
  | cons e more ih =>
    obtain ⟨u, v⟩ := e
    rw [defaultsLoop, ih, mem_mapKeys_mapSet]
    simp only [mapKeys, List.map_cons, List.mem_cons]
    tauto

theorem defaultsLoop_nodup (l : GoMap Bytes) (all : GoMap (List Bytes))
    (h : (mapKeys all).Nodup) : (mapKeys (defaultsLoop l all)).Nodup := by
  induction l generalizing all with
  | nil => exact h
  | cons e more ih =>
    obtain ⟨u, v⟩ := e
    rw [defaultsLoop]
    exact ih _ (nodup_mapKeys_mapSet all u [v] h)

/-- The second loop of main stops the process at the first alternate chain
whose issuer has no chain set. -/
theorem alternatesLoop_fail (l : GoMap Bytes) (all : GoMap (List Bytes))
    (h : ∃ k ∈ mapKeys l, k ∉ mapKeys all) :
    ∃ k ∈ mapKeys l, k ∉ mapKeys all ∧
      alternatesLoop l all = .exit (.message (missingDefaultMsg k)) := by
  induction l generalizing all with
  | nil => simp [mapKeys] at h
  | cons e more ih =>
    obtain ⟨u, v⟩ := e
    rw [alternatesLoop]
    cases hg : mapGet all u with
    | none =>
      exact ⟨u, by simp [mapKeys], (mapGet_eq_none_iff all u).mp hg, rfl⟩
    | some chains =>
      have hu : u ∈ mapKeys all := (mapGet_isSome_iff all u).mp ⟨chains, hg⟩
      obtain ⟨k, hk, hnot⟩ := h
      have hk2 : k ∈ mapKeys more := by
        simp only [mapKeys, List.map_cons, List.mem_cons] at hk
        rcases hk with rfl | hk
        · exact absurd hu hnot
        · exact hk
      have hnot2 : k ∉ mapKeys (mapSet all u (chains ++ [v])) := by
        rw [mem_mapKeys_mapSet]
        rintro (rfl | hin)
        · exact hnot hu
        · exact hnot hin
      obtain ⟨k3, hk3, hn3, hloop⟩ := ih _ ⟨k, hk2, hnot2⟩
      refine ⟨k3, ?_, ?_, hloop⟩
      · simp only [mapKeys, List.map_cons, List.mem_cons]
        exact Or.inr hk3
      · intro hin
        exact hn3 ((mem_mapKeys_mapSet all u k3 _).mpr (Or.inr hin))

theorem alternatesLoop_get_of_not_mem (l : GoMap Bytes) (all all2 : GoMap (List Bytes))
    (k : String) (h : k ∉ mapKeys l) (hloop : alternatesLoop l all = .ret all2) :
    mapGet all2 k = mapGet all k := by
  induction l generalizing all with
  | nil =>
    simp only [alternatesLoop, Run.ret.injEq] at hloop
    rw [hloop]
  | cons e more ih =>
    obtain ⟨u, v⟩ := e
    have hu : k ≠ u := fun he => h (by simp [mapKeys, he])
    have hm : k ∉ mapKeys more := fun hm => h (by
      simp only [mapKeys, List.map_cons, List.mem_cons]
      exact Or.inr hm)
    rw [alternatesLoop] at hloop
    cases hg : mapGet all u with
    | none => rw [hg] at hloop; cases hloop
    | some chains =>
      rw [hg] at hloop
      rw [ih _ hm hloop, mapGet_mapSet_ne _ _ _ _ hu]

/-- When the second loop of main runs to its end, every alternate chain has
been appended to the chain set of its issuer. -/
theorem alternatesLoop_get (l : GoMap Bytes) (all all2 : GoMap (List Bytes))
    (k : String) (chainPEM : Bytes) (hnd : (mapKeys l).Nodup) (hmem : (k, chainPEM) ∈ l)
    (hloop : alternatesLoop l all = .ret all2) :
    ∃ chains, mapGet all k = some chains ∧ mapGet all2 k = some (chains ++ [chainPEM]) := by
  induction l generalizing all with
  | nil => cases hmem
  | cons e more ih =>
    obtain ⟨u, v⟩ := e
    have h1 : u ∉ mapKeys more := (List.nodup_cons.mp hnd).1
    have h2 : (mapKeys more).Nodup := (List.nodup_cons.mp hnd).2
    rw [alternatesLoop] at hloop
    cases hg : mapGet all u with
    | none => rw [hg] at hloop; cases hloop
    | some chains =>
      rw [hg] at hloop
      rcases List.mem_cons.mp hmem with heq | hin
      · cases heq
        refine ⟨chains, hg, ?_⟩
        rw [alternatesLoop_get_of_not_mem more _ all2 k h1 hloop, mapGet_mapSet_self]
      · have hu : k ≠ u := by
          rintro rfl
          exact h1 (mem_mapKeys_of_mem more k chainPEM hin)
        obtain ⟨c2, hc2, hres⟩ := ih _ h2 hin hloop
        rw [mapGet_mapSet_ne _ _ _ _ hu] at hc2
        exact ⟨c2, hc2, hres⟩

theorem alternatesLoop_keys (l : GoMap Bytes) (all all2 : GoMap (List Bytes))
    (hloop : alternatesLoop l all = .ret all2) :
    (∀ k, k ∈ mapKeys all2 ↔ k ∈ mapKeys all) ∧ (∀ k ∈ mapKeys l, k ∈ mapKeys all) ∧
      ((mapKeys all).Nodup → (mapKeys all2).Nodup) := by
  induction l generalizing all with
  | nil =>
    simp only [alternatesLoop, Run.ret.injEq] at hloop
    subst hloop
    simp [mapKeys]
  | cons e more ih =>
    obtain ⟨u, v⟩ := e
    rw [alternatesLoop] at hloop
    cases hg : mapGet all u with
    | none => rw [hg] at hloop; cases hloop
    | some chains =>
      rw [hg] at hloop
      have hu : u ∈ mapKeys all := (mapGet_isSome_iff all u).mp ⟨chains, hg⟩
      obtain ⟨ih1, ih2, ih3⟩ := ih _ hloop
      have hkeys : ∀ k, k ∈ mapKeys (mapSet all u (chains ++ [v])) ↔ k ∈ mapKeys all := by
        intro k
        rw [mem_mapKeys_mapSet]
        constructor
        · rintro (rfl | h)
          · exact hu
          · exact h
        · exact Or.inr
      refine ⟨fun k => (ih1 k).trans (hkeys k), ?_, fun hn => ih3 (nodup_mapKeys_mapSet _ _ _ hn)⟩
      intro k hk
      simp only [mapKeys, List.map_cons, List.mem_cons] at hk
      rcases hk with rfl | hk
      · exact hu
      · exact (hkeys k).mp (ih2 k hk)

/-- The second loop of main never panics: it runs to its end or stops the
process. -/
theorem alternatesLoop_cases (l : GoMap Bytes) (all : GoMap (List Bytes)) :
    (∃ all2, alternatesLoop l all = .ret all2) ∨
    (∃ k ∈ mapKeys l, k ∉ mapKeys all ∧
      alternatesLoop l all = .exit (.message (missingDefaultMsg k))) := by
  by_cases h : ∃ k ∈ mapKeys l, k ∉ mapKeys all
  · exact Or.inr (alternatesLoop_fail l all h)
  · left
    induction l generalizing all with
    | nil => exact ⟨all, rfl⟩
    | cons e more ih =>
      obtain ⟨u, v⟩ := e
      rw [alternatesLoop]
      cases hg : mapGet all u with
      | none =>
        exfalso
        exact h ⟨u, by simp [mapKeys], (mapGet_eq_none_iff all u).mp hg⟩
      | some chains =>
        apply ih
        rintro ⟨k, hk, hnot⟩
        apply h
        refine ⟨k, ?_, fun hin => hnot ((mem_mapKeys_mapSet all u k _).mpr (Or.inr hin))⟩
        simp only [mapKeys, List.map_cons, List.mem_cons]
        exact Or.inr hk

theorem storeChains_nodup {Cert : Type} (W : World Cert) (cfg : GoMap (List String))
    (results : GoMap Bytes) (h : (mapKeys results).Nodup) :
    (mapKeys (storeChains W cfg results)).Nodup := by
  induction cfg generalizing results with
  | nil => exact h
  | cons e more ih =>
    obtain ⟨u, fs⟩ := e
    rw [storeChains]
    split
    · exact ih _ h
    · exact ih _ (nodup_mapKeys_mapSet results u _ h)

/-- The keys of the map loadCertificateChains builds: the issuers with a
non-empty file list. -/
theorem storeChains_keys {Cert : Type} (W : World Cert) (cfg : GoMap (List String))
    (results : GoMap Bytes) (k : String) :
    k ∈ mapKeys (storeChains W cfg results) ↔
      (∃ files, (k, files) ∈ cfg ∧ files ≠ []) ∨ k ∈ mapKeys results := by
  induction cfg generalizing results with
  | nil => simp [storeChains]
  | cons e more ih =>
    obtain ⟨u, fs⟩ := e
    rw [storeChains, ih]
    by_cases hf : fs = []
    · subst hf
      simp only [if_true, List.mem_cons, Prod.mk.injEq]
      constructor
      · rintro (⟨files, hm, hne⟩ | h)
        · exact Or.inl ⟨files, Or.inr hm, hne⟩
        · exact Or.inr h
      · rintro (⟨files, (⟨_, rfl⟩ | hm), hne⟩ | h)
        · exact absurd rfl hne
        · exact Or.inl ⟨files, hm, hne⟩
        · exact Or.inr h
    · simp only [hf, if_false, mem_mapKeys_mapSet, List.mem_cons, Prod.mk.injEq]
      constructor
      · rintro (⟨files, hm, hne⟩ | rfl | h)
        · exact Or.inl ⟨files, Or.inr hm, hne⟩
        · exact Or.inl ⟨fs, Or.inl ⟨rfl, rfl⟩, hf⟩
        · exact Or.inr h
      · rintro (⟨files, (⟨rfl, rfl⟩ | hm), hne⟩ | h)
        · exact Or.inr (Or.inl rfl)
        · exact Or.inl ⟨files, hm, hne⟩
        · exact Or.inr (Or.inr h)

/-- The two loops of main on maps with distinct keys, each visited in any
order: the keys are those of the defaults, a default chain comes first in its
chain set and an alternate chain, when there is one, second. -/
theorem merge_get (certChains altCertChains R RA : GoMap Bytes) (all : GoMap (List Bytes))
    (hnd : (mapKeys certChains).Nodup) (hnda : (mapKeys altCertChains).Nodup)
    (hR : R.Perm certChains) (hRA : RA.Perm altCertChains)
    (hloop : alternatesLoop RA (defaultsLoop R []) = .ret all) :
    (∀ k, k ∈ mapKeys all ↔ k ∈ mapKeys certChains) ∧
    (mapKeys all).Nodup ∧
    (∀ k chainD chainA, mapGet certChains k = some chainD →
      mapGet altCertChains k = some chainA → mapGet all k = some [chainD, chainA]) ∧
    (∀ k chainD, mapGet certChains k = some chainD →
      mapGet altCertChains k = none → mapGet all k = some [chainD]) := by
  have hndR : (mapKeys R).Nodup := (hR.map Prod.fst).nodup_iff.mpr hnd
  have hndRA : (mapKeys RA).Nodup := (hRA.map Prod.fst).nodup_iff.mpr hnda
  have hkR : ∀ k, k ∈ mapKeys R ↔ k ∈ mapKeys certChains := fun k => (hR.map Prod.fst).mem_iff
  have hkRA : ∀ k, k ∈ mapKeys RA ↔ k ∈ mapKeys altCertChains :=
    fun k => (hRA.map Prod.fst).mem_iff
  obtain ⟨hk1, _, hk3⟩ := alternatesLoop_keys RA _ all hloop
  have hD : ∀ k chainD, mapGet certChains k = some chainD →
      mapGet (defaultsLoop R []) k = some [chainD] := by
    intro k chainD hg
    exact defaultsLoop_get R [] k chainD hndR (hR.symm.subset (mem_of_mapGet _ _ _ hg))
  refine ⟨fun k => ?_, hk3 (defaultsLoop_nodup R [] (by simp [mapKeys])), ?_, ?_⟩
  · rw [hk1, defaultsLoop_keys, hkR]
    simp [mapKeys]
  · intro k chainD chainA hg hga
    obtain ⟨chains, hc, hres⟩ := alternatesLoop_get RA _ all k chainA hndRA
      (hRA.symm.subset (mem_of_mapGet _ _ _ hga)) hloop
    rw [hD k chainD hg] at hc
    cases hc
    simpa using hres
  · intro k chainD hg hga
    have hnot : k ∉ mapKeys RA := by
      rw [hkRA]
      exact (mapGet_eq_none_iff _ _).mp hga
    rw [alternatesLoop_get_of_not_mem RA _ all k hnot hloop]
    exact hD k chainD hg

/-- The ways the chain building of main can end, step by step. -/
theorem chainSets_cases {Cert : Type} (W : World Cert) (c : Config) :
    (∃ err, loadCertificateChains W c.CertificateChains true = .ret ⟨none, [], some err⟩ ∧
      chainSets W c =
        .exit (.onError (.load err) "Couldn't read configured CertificateChains")) ∨
    (∃ certChains certs,
      loadCertificateChains W c.CertificateChains true = .ret ⟨some certChains, certs, none⟩ ∧
      (mapKeys certChains).Nodup ∧
      (∀ k, k ∈ mapKeys certChains ↔ k ∈ mapKeys c.CertificateChains) ∧
      ((∃ e, W.FeaturesSet c.Features = some e ∧
          chainSets W c = .exit (.onError (.features e) "Failed to set feature flags")) ∨
       (W.FeaturesSet c.Features = none ∧
        ((c.AlternateCertificateChains = none ∧
            chainSets W c = .ret (defaultsLoop (W.rangeOrder certChains) [], certs)) ∨
         (∃ a, c.AlternateCertificateChains = some a ∧
          ((∃ err, loadCertificateChains W a false = .ret ⟨none, [], some err⟩ ∧
              chainSets W c = .exit (.onError (.load err)
                "Couldn't read configured AlternateCertificateChains")) ∨
           (∃ altCertChains ac,
              loadCertificateChains W a false = .ret ⟨some altCertChains, ac, none⟩ ∧
              (mapKeys altCertChains).Nodup ∧
              (∀ k, k ∈ mapKeys altCertChains ↔ ∃ files, (k, files) ∈ a ∧ files ≠ []) ∧
              chainSets W c =
                (match alternatesLoop (W.rangeOrder altCertChains)
                    (defaultsLoop (W.rangeOrder certChains) []) with
                 | .panic => .panic
                 | .exit d => .exit d
                 | .ret allCertChains1 => .ret (allCertChains1, certs))))))))) := by
  rcases loadCertificateChains_cases W c.CertificateChains true with ⟨hall, hd⟩ | ⟨_, err, hd⟩
  · right
    refine ⟨_, _, hd, storeChains_nodup W _ [] (by simp [mapKeys]), fun k => ?_, ?_⟩
    · rw [storeChains_keys]
      constructor
      · rintro (⟨files, hm, _⟩ | h)
        · exact mem_mapKeys_of_mem _ k files hm
        · simp [mapKeys] at h
      · intro hk
        obtain ⟨⟨k2, files⟩, hm, rfl⟩ := List.mem_map.mp hk
        exact Or.inl ⟨files, hm, (hall _ hm).1 rfl⟩
    · cases hf : W.FeaturesSet c.Features with
      | some e =>
        left
        exact ⟨e, rfl, by simp [chainSets, hd, FailOnError, hf]⟩
      | none =>
        right
        refine ⟨rfl, ?_⟩
        cases ha : c.AlternateCertificateChains with
        | none =>
          left
          exact ⟨rfl, by simp [chainSets, hd, FailOnError, hf, ha]⟩
        | some a =>
          right
          refine ⟨a, rfl, ?_⟩
          rcases loadCertificateChains_cases W a false with ⟨_, hl⟩ | ⟨_, err, hl⟩
          · right
            refine ⟨_, _, hl, storeChains_nodup W _ [] (by simp [mapKeys]), fun k => ?_, ?_⟩
            · rw [storeChains_keys]
              simp [mapKeys]
            · simp [chainSets, hd, FailOnError, hf, ha, hl]
          · left
            exact ⟨err, hl, by simp [chainSets, hd, FailOnError, hf, ha, hl]⟩
  · left
    exact ⟨err, hd, by simp [chainSets, hd, FailOnError]⟩

/-- C6: when both chain maps have been loaded and the alternates map has an
issuer that the defaults map has not, the build fails as a whole: main ends in
a process exit and hands no chain set on.  Unless setting the feature flags
has failed first, the diagnostic is the one of line 305 for such an issuer. -/
theorem chainSets_alternate_without_default {Cert : Type} (W : World Cert) (c : Config)
    (certChains altCertChains : GoMap Bytes) (certs ac : List (Option Cert))
    (a : GoMap (List String))
    (hd : loadCertificateChains W c.CertificateChains true = .ret ⟨some certChains, certs, none⟩)
    (ha : c.AlternateCertificateChains = some a)
    (hl : loadCertificateChains W a false = .ret ⟨some altCertChains, ac, none⟩)
    (hk : ∃ k ∈ mapKeys altCertChains, k ∉ mapKeys certChains) :
    ∃ d, chainSets W c = .exit d ∧
      (W.FeaturesSet c.Features = none →
        ∃ k ∈ mapKeys altCertChains, k ∉ mapKeys certChains ∧
          d = .message (missingDefaultMsg k)) := by
  rcases chainSets_cases W c with ⟨err, hd2, _⟩ | ⟨cc, cs, hd2, hnd, _, hrest⟩
  · rw [hd] at hd2
    simp at hd2
  · rw [hd] at hd2
    simp only [Call.ret.injEq, ChainsResult.mk.injEq, Option.some.injEq, and_true] at hd2
    obtain ⟨rfl, rfl⟩ := hd2
    rcases hrest with ⟨e, hf, hexit⟩ | ⟨hf, hrest⟩
    · exact ⟨_, hexit, fun hn => by rw [hn] at hf; cases hf⟩
    · rcases hrest with ⟨hnone, _⟩ | ⟨a2, ha2, hrest⟩
      · rw [ha] at hnone
        cases hnone
      · rw [ha] at ha2
        cases ha2
        rcases hrest with ⟨err, hl2, _⟩ | ⟨alt2, ac2, hl2, _, _, hres⟩
        · rw [hl] at hl2
          simp at hl2
        · rw [hl] at hl2
          simp only [Call.ret.injEq, ChainsResult.mk.injEq, Option.some.injEq, and_true] at hl2
          obtain ⟨rfl, rfl⟩ := hl2
          obtain ⟨k, hk1, hk2⟩ := hk
          have hkR : ∀ k, k ∈ mapKeys (W.rangeOrder certChains) ↔ k ∈ mapKeys certChains :=
            fun k => ((W.rangeOrder_perm certChains).map Prod.fst).mem_iff
          have hkRA : ∀ k, k ∈ mapKeys (W.rangeOrder altCertChains) ↔
              k ∈ mapKeys altCertChains :=
            fun k => ((W.rangeOrder_perm altCertChains).map Prod.fst).mem_iff
          have hkD : ∀ k, k ∈ mapKeys (defaultsLoop (W.rangeOrder certChains) []) ↔
              k ∈ mapKeys certChains := by
            intro k
            rw [defaultsLoop_keys, hkR]
            simp [mapKeys]
          obtain ⟨k3, hk3, hn3, hloop⟩ := alternatesLoop_fail (W.rangeOrder altCertChains)
            (defaultsLoop (W.rangeOrder certChains) [])
            ⟨k, (hkRA k).mpr hk1, fun hin => hk2 ((hkD k).mp hin)⟩
          rw [hloop] at hres
          exact ⟨_, hres, fun _ => ⟨k3, (hkRA k3).mp hk3, fun hin => hn3 ((hkD k3).mpr hin), rfl⟩⟩

theorem chainSets_alternate_without_default_witness :
    ∃ d, chainSets sampleWorld strayConfig = .exit d ∧
      (sampleWorld.FeaturesSet strayConfig.Features = none →
        ∃ k ∈ mapKeys [("http://ca.example/x1",
            ascii "\n-----BEGIN CERTIFICATE-----\nMAE=\n-----END CERTIFICATE-----\n")],
          k ∉ mapKeys [("http://ca.example/r3", 10 :: samplePEM)] ∧
          d = .message (missingDefaultMsg k)) :=
  chainSets_alternate_without_default sampleWorld strayConfig
    [("http://ca.example/r3", 10 :: samplePEM)]
    [("http://ca.example/x1",
      ascii "\n-----BEGIN CERTIFICATE-----\nMAE=\n-----END CERTIFICATE-----\n")]
    [some [48, 0]] [some [48, 1]] [("http://ca.example/x1", ["b.pem"])]
    (by decide) rfl (by decide) ⟨"http://ca.example/x1", by decide, by decide⟩

/-- C7: when the chain building of main gets through, the chain sets have
exactly the issuers of the loaded defaults map as keys; the chain set of an
issuer with default chain chainD and alternate chain chainA is chainD, then
chainA; that of an issuer with a default chain and no alternate chain is
chainD alone; so every chain set opens with the default chain and none is
empty. -/
theorem chainSets_merge {Cert : Type} (W : World Cert) (c : Config)
    (all : GoMap (List Bytes)) (certs : List (Option Cert))
    (h : chainSets W c = .ret (all, certs)) :
    ∃ certChains altCertChains,
      loadCertificateChains W c.CertificateChains true = .ret ⟨some certChains, certs, none⟩ ∧
      ((c.AlternateCertificateChains = none ∧ altCertChains = []) ∨
        ∃ a ac, c.AlternateCertificateChains = some a ∧
          loadCertificateChains W a false = .ret ⟨some altCertChains, ac, none⟩) ∧
      (∀ k, k ∈ mapKeys all ↔ k ∈ mapKeys certChains) ∧
      (mapKeys all).Nodup ∧
      (∀ k chainD chainA, mapGet certChains k = some chainD →
        mapGet altCertChains k = some chainA → mapGet all k = some [chainD, chainA]) ∧
      (∀ k chainD, mapGet certChains k = some chainD →
        mapGet altCertChains k = none → mapGet all k = some [chainD]) ∧
      (∀ k chains, mapGet all k = some chains →
        ∃ chainD, mapGet certChains k = some chainD ∧ chains.head? = some chainD) := by
  have hlast : ∀ (certChains altCertChains : GoMap Bytes),
      (∀ k, k ∈ mapKeys all ↔ k ∈ mapKeys certChains) →
      (∀ k chainD chainA, mapGet certChains k = some chainD →
        mapGet altCertChains k = some chainA → mapGet all k = some [chainD, chainA]) →
      (∀ k chainD, mapGet certChains k = some chainD →
        mapGet altCertChains k = none → mapGet all k = some [chainD]) →
      ∀ k chains, mapGet all k = some chains →
        ∃ chainD, mapGet certChains k = some chainD ∧ chains.head? = some chainD := by
    intro cc alt h1 h2 h3 k chains hg
    have hk : k ∈ mapKeys cc := (h1 k).mp ((mapGet_isSome_iff all k).mp ⟨chains, hg⟩)
    obtain ⟨chainD, hD⟩ := (mapGet_isSome_iff cc k).mpr hk
    refine ⟨chainD, hD, ?_⟩
    cases hA : mapGet alt k with
    | none =>
      rw [h3 k chainD hD hA] at hg
      cases hg
      rfl
    | some chainA =>
      rw [h2 k chainD chainA hD hA] at hg
      cases hg
      rfl
  rcases chainSets_cases W c with ⟨err, _, hx⟩ | ⟨cc, cs, hd, hnd, _, hrest⟩
  · rw [hx] at h
    cases h
  · rcases hrest with ⟨e, _, hx⟩ | ⟨_, hrest⟩
    · rw [hx] at h
      cases h
    · rcases hrest with ⟨hnone, hx⟩ | ⟨a, ha, hrest⟩
      · rw [hx] at h
        simp only [Run.ret.injEq, Prod.mk.injEq] at h
        obtain ⟨rfl, rfl⟩ := h
        obtain ⟨m1, m2, m3, m4⟩ := merge_get cc [] (W.rangeOrder cc) []
          (defaultsLoop (W.rangeOrder cc) []) hnd (by simp [mapKeys]) (W.rangeOrder_perm cc)
          (List.Perm.refl _) rfl
        exact ⟨cc, [], hd, Or.inl ⟨hnone, rfl⟩, m1, m2, m3, m4, hlast cc [] m1 m3 m4⟩
      · rcases hrest with ⟨err, _, hx⟩ | ⟨alt, ac, hl, hnda, _, hx⟩
        · rw [hx] at h
          cases h
        · rw [hx] at h
          cases hloop : alternatesLoop (W.rangeOrder alt) (defaultsLoop (W.rangeOrder cc) []) with
          | panic => rw [hloop] at h; cases h
          | exit d => rw [hloop] at h; cases h
          | ret all2 =>
            rw [hloop] at h
            simp only [Run.ret.injEq, Prod.mk.injEq] at h
            obtain ⟨rfl, rfl⟩ := h
            obtain ⟨m1, m2, m3, m4⟩ := merge_get cc alt (W.rangeOrder cc) (W.rangeOrder alt)
              all2 hnd hnda (W.rangeOrder_perm cc) (W.rangeOrder_perm alt) hloop
            exact ⟨cc, alt, hd, Or.inr ⟨a, ac, ha, hl⟩, m1, m2, m3, m4, hlast cc alt m1 m3 m4⟩

theorem chainSets_merge_witness :
    ∃ certChains altCertChains,
      loadCertificateChains sampleWorld sampleConfig.CertificateChains true =
        .ret ⟨some certChains, [some [48, 0]], none⟩ ∧
      ((sampleConfig.AlternateCertificateChains = none ∧ altCertChains = []) ∨
        ∃ a ac, sampleConfig.AlternateCertificateChains = some a ∧
          loadCertificateChains sampleWorld a false = .ret ⟨some altCertChains, ac, none⟩) ∧
      (∀ k, k ∈ mapKeys sampleChainSets ↔ k ∈ mapKeys certChains) ∧
      (mapKeys sampleChainSets).Nodup ∧
      (∀ k chainD chainA, mapGet certChains k = some chainD →
        mapGet altCertChains k = some chainA →
        mapGet sampleChainSets k = some [chainD, chainA]) ∧
      (∀ k chainD, mapGet certChains k = some chainD →
        mapGet altCertChains k = none → mapGet sampleChainSets k = some [chainD]) ∧
      (∀ k chains, mapGet sampleChainSets k = some chains →
        ∃ chainD, mapGet certChains k = some chainD ∧ chains.head? = some chainD) :=
  chainSets_merge sampleWorld sampleConfig sampleChainSets [some [48, 0]] (by decide)

/-- C10, as stated, fails: the issuer x1 is a key of AlternateCertificateChains
and not of CertificateChains, its file list is empty, and main gets through
with the chain sets of the defaults. -/
theorem chainSets_empty_alternate :
    "http://ca.example/x1" ∈ mapKeys (emptyAlternateConfig.AlternateCertificateChains.getD []) ∧
    "http://ca.example/x1" ∉ mapKeys emptyAlternateConfig.CertificateChains ∧
    chainSets sampleWorld emptyAlternateConfig =
      .ret ([("http://ca.example/r3", [10 :: samplePEM])], [some [48, 0]]) := by
  decide

/-- The text of the diagnostic of line 305, written out. -/
theorem missingDefaultMsg_text (aiaURL : String) :
    missingDefaultMsg aiaURL =
      "AIA Issuer URL " ++ aiaURL ++
        " appeared in AlternateCertificateChains, but does not exist in CertificateChains" := by
  have h : " appeared in AlternateCertificateChains, " ++ "but does not exist in CertificateChains"
      = " appeared in AlternateCertificateChains, but does not exist in CertificateChains" := by
    decide
  unfold missingDefaultMsg
  rw [String.append_assoc, h]

/-- C10, amended: when an issuer is a key of AlternateCertificateChains with a
non-empty file list and not a key of CertificateChains, startup fails; when
both chain maps load without error and the feature flags are set, it fails
with the diagnostic "AIA Issuer URL ... appeared in AlternateCertificateChains,
but does not exist in CertificateChains", and the issuer it names is such a
key: one with a non-empty file list that is not a key of CertificateChains.  A
key with an empty file list is not rejected: when both maps load, the flags are
set and every key of AlternateCertificateChains with a non-empty file list is a
key of CertificateChains, main gets through, whatever keys with an empty file
list there are. -/
theorem chainSets_stray_alternate {Cert : Type} (W : World Cert) (c : Config)
    (a : GoMap (List String))
    (ha : c.AlternateCertificateChains = some a) :
    ((∃ k files, (k, files) ∈ a ∧ files ≠ [] ∧ k ∉ mapKeys c.CertificateChains) →
      ∃ d, chainSets W c = .exit d ∧
        ((∃ r, loadCertificateChains W c.CertificateChains true = .ret r ∧ r.err = none) →
          W.FeaturesSet c.Features = none →
          (∃ r, loadCertificateChains W a false = .ret r ∧ r.err = none) →
          ∃ k files, (k, files) ∈ a ∧ files ≠ [] ∧ k ∉ mapKeys c.CertificateChains ∧
            d = .message ("AIA Issuer URL " ++ k ++
              " appeared in AlternateCertificateChains, but does not exist in CertificateChains"))) ∧
    ((∃ r, loadCertificateChains W c.CertificateChains true = .ret r ∧ r.err = none) →
      W.FeaturesSet c.Features = none →
      (∃ r, loadCertificateChains W a false = .ret r ∧ r.err = none) →
      (∀ k files, (k, files) ∈ a → files ≠ [] → k ∈ mapKeys c.CertificateChains) →
      ∃ all certs, chainSets W c = .ret (all, certs)) := by
  rcases chainSets_cases W c with ⟨err, hd, hx⟩ | ⟨cc, cs, hd, hnd, hkeys, hrest⟩
  · refine ⟨fun _ => ⟨_, hx, ?_⟩, ?_⟩
    · rintro ⟨r, hr, he⟩
      rw [hd] at hr
      cases hr
      cases he
    · rintro ⟨r, hr, he⟩
      rw [hd] at hr
      cases hr
      cases he
  · rcases hrest with ⟨e, hf, hx⟩ | ⟨hf, hrest⟩
    · exact ⟨fun _ => ⟨_, hx, fun _ hn => by rw [hn] at hf; cases hf⟩,
        fun _ hn => by rw [hn] at hf; cases hf⟩
    · rcases hrest with ⟨hnone, _⟩ | ⟨a2, ha2, hrest⟩
      · rw [ha] at hnone
        cases hnone
      · rw [ha] at ha2
        cases ha2
        rcases hrest with ⟨err, hl, hx⟩ | ⟨alt, ac, hl, _, hakeys, hres⟩
        · refine ⟨fun _ => ⟨_, hx, ?_⟩, ?_⟩
          · rintro _ _ ⟨r, hr, he⟩
            rw [hl] at hr
            cases hr
            cases he
          · rintro _ _ ⟨r, hr, he⟩
            rw [hl] at hr
            cases hr
            cases he
        · have hkR : ∀ k, k ∈ mapKeys (W.rangeOrder cc) ↔ k ∈ mapKeys cc :=
            fun k => ((W.rangeOrder_perm cc).map Prod.fst).mem_iff
          have hkRA : ∀ k, k ∈ mapKeys (W.rangeOrder alt) ↔ k ∈ mapKeys alt :=
            fun k => ((W.rangeOrder_perm alt).map Prod.fst).mem_iff
          have hkD : ∀ k, k ∈ mapKeys (defaultsLoop (W.rangeOrder cc) []) ↔
              k ∈ mapKeys c.CertificateChains := by
            intro k
            rw [defaultsLoop_keys, hkR, hkeys]
            simp [mapKeys]
          constructor
          · rintro ⟨k, files, hm, hne, hnot⟩
            obtain ⟨k3, hk3, hn3, hloop⟩ := alternatesLoop_fail (W.rangeOrder alt)
              (defaultsLoop (W.rangeOrder cc) [])
              ⟨k, (hkRA k).mpr ((hakeys k).mpr ⟨files, hm, hne⟩),
                fun hin => hnot ((hkD k).mp hin)⟩
            rw [hloop] at hres
            obtain ⟨fs, hfs, hfne⟩ := (hakeys k3).mp ((hkRA k3).mp hk3)
            refine ⟨_, hres, fun _ _ _ =>
              ⟨k3, fs, hfs, hfne, fun hin => hn3 ((hkD k3).mpr hin), ?_⟩⟩
            rw [missingDefaultMsg_text]
          · intro _ _ _ hall
            rcases alternatesLoop_cases (W.rangeOrder alt) (defaultsLoop (W.rangeOrder cc) [])
              with ⟨all2, hloop⟩ | ⟨k3, hk3, hn3, _⟩
            · rw [hloop] at hres
              exact ⟨all2, cs, hres⟩
            · exfalso
              obtain ⟨fs, hfs, hfne⟩ := (hakeys k3).mp ((hkRA k3).mp hk3)
              exact hn3 ((hkD k3).mpr (hall k3 fs hfs hfne))

theorem chainSets_stray_alternate_witness :
    (((∃ k files, (k, files) ∈
          [("http://ca.example/x1", ([] : List String)), ("http://ca.example/x2", ["b.pem"])] ∧
          files ≠ [] ∧ k ∉ mapKeys mixedAlternateConfig.CertificateChains) →
      ∃ d, chainSets sampleWorld mixedAlternateConfig = .exit d ∧
        ((∃ r, loadCertificateChains sampleWorld mixedAlternateConfig.CertificateChains true
            = .ret r ∧ r.err = none) →
          sampleWorld.FeaturesSet mixedAlternateConfig.Features = none →
          (∃ r, loadCertificateChains sampleWorld
            [("http://ca.example/x1", []), ("http://ca.example/x2", ["b.pem"])] false
            = .ret r ∧ r.err = none) →
          ∃ k files, (k, files) ∈
              [("http://ca.example/x1", ([] : List String)), ("http://ca.example/x2", ["b.pem"])] ∧
            files ≠ [] ∧ k ∉ mapKeys mixedAlternateConfig.CertificateChains ∧
            d = .message ("AIA Issuer URL " ++ k ++
              " appeared in AlternateCertificateChains, but does not exist in CertificateChains"))) ∧
    ((∃ r, loadCertificateChains sampleWorld mixedAlternateConfig.CertificateChains true
        = .ret r ∧ r.err = none) →
      sampleWorld.FeaturesSet mixedAlternateConfig.Features = none →
      (∃ r, loadCertificateChains sampleWorld
        [("http://ca.example/x1", []), ("http://ca.example/x2", ["b.pem"])] false
        = .ret r ∧ r.err = none) →
      (∀ k files, (k, files) ∈
          [("http://ca.example/x1", ([] : List String)), ("http://ca.example/x2", ["b.pem"])] →
        files ≠ [] → k ∈ mapKeys mixedAlternateConfig.CertificateChains) →
      ∃ all certs, chainSets sampleWorld mixedAlternateConfig = .ret (all, certs))) ∧
    chainSets sampleWorld mixedAlternateConfig =
      .exit (.message
        "AIA Issuer URL http://ca.example/x2 appeared in AlternateCertificateChains, but does not exist in CertificateChains") :=
  ⟨chainSets_stray_alternate sampleWorld mixedAlternateConfig
    [("http://ca.example/x1", []), ("http://ca.example/x2", ["b.pem"])] rfl, by decide⟩

/-! ## More on loadCertificateChains -/

/-- C11: when loadCertificateChains succeeds on a configuration (a map, so with
distinct keys), the result map has an entry for an issuer exactly when the
file list of that issuer is not empty, it has no entry for any other key, and
no stored chain is empty; so an issuer with an empty file list gets no entry
rather than an entry of empty bytes. -/
theorem loadCertificateChains_entries {Cert : Type} (W : World Cert)
    (cfg : GoMap (List String)) (req : Bool) (results : GoMap Bytes)
    (certs : List (Option Cert))
    (hnd : (mapKeys cfg).Nodup)
    (hok : loadCertificateChains W cfg req = .ret ⟨some results, certs, none⟩) :
    (∀ url files, (url, files) ∈ cfg →
      ((∃ chain, mapGet results url = some chain) ↔ files ≠ [])) ∧
    (∀ url, url ∉ mapKeys cfg → mapGet results url = none) ∧
    (∀ url chain, mapGet results url = some chain → chain ≠ []) := by
  rcases loadCertificateChains_cases W cfg req with ⟨_, h⟩ | ⟨_, err, h⟩
  · rw [h] at hok
    simp only [Call.ret.injEq, ChainsResult.mk.injEq, Option.some.injEq, and_true] at hok
    obtain ⟨hres, _⟩ := hok
    subst hres
    refine ⟨fun url files hmem => ?_, fun url hnot => ?_, fun url chain hg => ?_⟩
    · rw [storeChains_get W cfg [] url files hnd hmem]
      by_cases hf : files = []
      · simp [hf, mapGet]
      · simp [hf]
    · rw [storeChains_get_of_not_mem W cfg [] url hnot]
      rfl
    · have hk : url ∈ mapKeys (storeChains W cfg []) :=
        (mapGet_isSome_iff _ url).mp ⟨chain, hg⟩
      rcases (storeChains_keys W cfg [] url).mp hk with ⟨files, hmem, hne⟩ | hnil
      · rw [storeChains_get W cfg [] url files hnd hmem, if_neg hne] at hg
        simp only [Option.some.injEq] at hg
        rw [← hg]
        intro hempty
        have := (chainOf_length_pos W url files).mpr hne
        rw [hempty] at this
        simp at this
      · simp [mapKeys] at hnil
  · rw [h] at hok
    simp at hok

theorem loadCertificateChains_entries_witness :
    (∀ url files,
      (url, files) ∈ [("http://ca.example/r3", ["a.pem"]), ("http://ca.example/x1", [])] →
      ((∃ chain, mapGet [("http://ca.example/r3", 10 :: samplePEM)] url = some chain) ↔
        files ≠ [])) ∧
    (∀ url, url ∉ mapKeys [("http://ca.example/r3", ["a.pem"]), ("http://ca.example/x1", [])] →
      mapGet [("http://ca.example/r3", 10 :: samplePEM)] url = none) ∧
    (∀ url chain, mapGet [("http://ca.example/r3", 10 :: samplePEM)] url = some chain →
      chain ≠ []) :=
  loadCertificateChains_entries sampleWorld
    [("http://ca.example/r3", ["a.pem"]), ("http://ca.example/x1", [])] false
    [("http://ca.example/r3", 10 :: samplePEM)] [some [48, 0]] (by decide) (by decide)

/-- Two maps with distinct keys and the same reads hold the same entries. -/
theorem perm_of_mapGet_eq {V : Type} (m m2 : GoMap V)
    (hnd : (mapKeys m).Nodup) (hnd2 : (mapKeys m2).Nodup)
    (h : ∀ k, mapGet m k = mapGet m2 k) : m.Perm m2 := by
  apply (List.perm_ext_iff_of_nodup (List.Nodup.of_map _ hnd) (List.Nodup.of_map _ hnd2)).mpr
  rintro ⟨k, v⟩
  constructor
  · intro hm
    apply mem_of_mapGet
    rw [← h k]
    exact mapGet_of_mem m k v hnd hm
  · intro hm
    apply mem_of_mapGet
    rw [h k]
    exact mapGet_of_mem m2 k v hnd2 hm

/-- The chain stored for a key does not depend on the order in which the
entries of the configuration are visited. -/
theorem storeChains_perm {Cert : Type} (W : World Cert) (cfg cfg2 : GoMap (List String))
    (hperm : cfg.Perm cfg2) (hnd : (mapKeys cfg).Nodup) (k : String) :
    mapGet (storeChains W cfg []) k = mapGet (storeChains W cfg2 []) k := by
  have hnd2 : (mapKeys cfg2).Nodup := (hperm.map Prod.fst).nodup_iff.mp hnd
  by_cases hk : k ∈ mapKeys cfg
  · obtain ⟨⟨k1, files⟩, hm, rfl⟩ := List.mem_map.mp hk
    rw [storeChains_get W cfg [] k1 files hnd hm,
      storeChains_get W cfg2 [] k1 files hnd2 (hperm.subset hm)]
  · have hk2 : k ∉ mapKeys cfg2 := fun h => hk ((hperm.map Prod.fst).mem_iff.mpr h)
    rw [storeChains_get_of_not_mem W cfg [] k hk, storeChains_get_of_not_mem W cfg2 [] k hk2]

/-- C12: the outcome of loadCertificateChains does not depend on the order in
which range visits the issuers of a configuration (a map, so with distinct
keys): both runs return, both fail or both succeed, and when they succeed the
two maps read the same at every key and hold the same entries, and the two
issuer certificate lists hold the same certificates as multisets. -/
theorem loadCertificateChains_order {Cert : Type} (W : World Cert)
    (cfg cfg2 : GoMap (List String)) (req : Bool)
    (hperm : cfg.Perm cfg2) (hnd : (mapKeys cfg).Nodup) :
    ∃ r r2, loadCertificateChains W cfg req = .ret r ∧
      loadCertificateChains W cfg2 req = .ret r2 ∧
      (r.err = none ↔ r2.err = none) ∧
      (r.err = none →
        ∃ m m2, r.results = some m ∧ r2.results = some m2 ∧
          (∀ k, mapGet m k = mapGet m2 k) ∧ m.Perm m2 ∧
          r.issuerCerts.Perm r2.issuerCerts) := by
  have hnd2 : (mapKeys cfg2).Nodup := (hperm.map Prod.fst).nodup_iff.mp hnd
  rcases loadCertificateChains_cases W cfg req with ⟨hall, h⟩ | ⟨⟨e, he, hbad⟩, err, h⟩
  · have hall2 : ∀ e ∈ cfg2, entryOk W req e := fun e he => hall e (hperm.symm.subset he)
    rcases loadCertificateChains_cases W cfg2 req with ⟨_, h2⟩ | ⟨⟨e, he, hbad⟩, _, _⟩
    · refine ⟨_, _, h, h2, by simp, fun _ => ⟨_, _, rfl, rfl, ?_, ?_, ?_⟩⟩
      · exact storeChains_perm W cfg cfg2 hperm hnd
      · exact perm_of_mapGet_eq _ _ (storeChains_nodup W cfg [] (by simp [mapKeys]))
          (storeChains_nodup W cfg2 [] (by simp [mapKeys])) (storeChains_perm W cfg cfg2 hperm hnd)
      · exact hperm.flatMap_right _
    · exact absurd (hall2 e he) hbad
  · rcases loadCertificateChains_cases W cfg2 req with ⟨hall2, _⟩ | ⟨_, err2, h2⟩
    · exact absurd (hall2 e (hperm.subset he)) hbad
    · exact ⟨_, _, h, h2, by simp, fun hn => by simp at hn⟩

theorem loadCertificateChains_order_witness :
    ∃ r r2,
      loadCertificateChains sampleWorld
        [("http://ca.example/r3", ["a.pem"]), ("http://ca.example/x1", ["b.pem"])] true
        = .ret r ∧
      loadCertificateChains sampleWorld
        [("http://ca.example/x1", ["b.pem"]), ("http://ca.example/r3", ["a.pem"])] true
        = .ret r2 ∧
      (r.err = none ↔ r2.err = none) ∧
      (r.err = none →
        ∃ m m2, r.results = some m ∧ r2.results = some m2 ∧
          (∀ k, mapGet m k = mapGet m2 k) ∧ m.Perm m2 ∧
          r.issuerCerts.Perm r2.issuerCerts) :=
  loadCertificateChains_order sampleWorld
    [("http://ca.example/r3", ["a.pem"]), ("http://ca.example/x1", ["b.pem"])]
    [("http://ca.example/x1", ["b.pem"]), ("http://ca.example/r3", ["a.pem"])] true
    (List.Perm.swap _ _ _) (by decide)

/-- With requireAtLeastOneChain set, a configuration in order contributes one
certificate per entry: the one parsed from the payload of the PEM block of the
first file. -/
theorem directCerts_forall2 {Cert : Type} (W : World Cert) (cfg : GoMap (List String))
    (h : ∀ e ∈ cfg, entryOk W true e) :
    ∃ cs : List Cert, cfg.flatMap (directCert W) = cs.map some ∧
      List.Forall₂ (fun e c => ∃ f more content blk, e.2 = f :: more ∧
        W.ReadFile f = .ok content ∧ pem.Decode content = (some blk, []) ∧
        W.ParseCertificate blk.bytes = .ok c) cfg cs := by
  induction cfg with
  | nil => exact ⟨[], rfl, List.Forall₂.nil⟩
  | cons e more ih =>
    obtain ⟨cs, hcs, hall⟩ := ih (fun e2 he2 => h e2 (by simp [he2]))
    obtain ⟨url, files⟩ := e
    obtain ⟨hne, hfiles⟩ := h (url, files) (by simp)
    cases files with
    | nil => exact absurd rfl (hne rfl)
    | cons f fs =>
      obtain ⟨content, blk, cert, hr, _, hp, _, hx, _, hcert⟩ :=
        fileErr_eq_none W url f (hfiles f (by simp))
      refine ⟨cert :: cs, ?_, List.Forall₂.cons ⟨f, fs, content, blk, rfl, hr, hp, hx⟩ hall⟩
      simp [List.flatMap_cons, directCert, hcert, hcs]

/-- C13: when loadCertificateChains succeeds with requireAtLeastOneChain set on
a configuration (a map, so with distinct keys), the issuer certificates are as
many as the keys of the configuration and as the keys of the result map, which
are the same keys, and they are, entry by entry, the certificate parsed from
the first file of the chain of each issuer. -/
theorem loadCertificateChains_issuerCerts {Cert : Type} (W : World Cert)
    (cfg : GoMap (List String)) (results : GoMap Bytes) (certs : List (Option Cert))
    (hnd : (mapKeys cfg).Nodup)
    (hok : loadCertificateChains W cfg true = .ret ⟨some results, certs, none⟩) :
    certs.length = (mapKeys cfg).length ∧
    certs.length = (mapKeys results).length ∧
    (∀ k, k ∈ mapKeys results ↔ k ∈ mapKeys cfg) ∧
    ∃ cs : List Cert, certs = cs.map some ∧
      List.Forall₂ (fun e c => ∃ f more content blk, e.2 = f :: more ∧
        W.ReadFile f = .ok content ∧ pem.Decode content = (some blk, []) ∧
        W.ParseCertificate blk.bytes = .ok c) cfg cs := by
  rcases loadCertificateChains_cases W cfg true with ⟨hall, h⟩ | ⟨_, err, h⟩
  · rw [h] at hok
    simp only [Call.ret.injEq, ChainsResult.mk.injEq, Option.some.injEq, and_true] at hok
    obtain ⟨hres, hcerts⟩ := hok
    subst hres
    subst hcerts
    obtain ⟨cs, hcs, hf2⟩ := directCerts_forall2 W cfg hall
    have hkeys : ∀ k, k ∈ mapKeys (storeChains W cfg []) ↔ k ∈ mapKeys cfg := by
      intro k
      rw [storeChains_keys]
      constructor
      · rintro (⟨files, hm, _⟩ | hnil)
        · exact mem_mapKeys_of_mem _ k files hm
        · simp [mapKeys] at hnil
      · intro hk
        obtain ⟨⟨k2, files⟩, hm, rfl⟩ := List.mem_map.mp hk
        exact Or.inl ⟨files, hm, (hall _ hm).1 rfl⟩
    have hperm : (mapKeys (storeChains W cfg [])).Perm (mapKeys cfg) :=
      (List.perm_ext_iff_of_nodup (storeChains_nodup W cfg [] (by simp [mapKeys])) hnd).mpr hkeys
    have hlen : (cfg.flatMap (directCert W)).length = (mapKeys cfg).length := by
      rw [hcs, List.length_map, ← hf2.length_eq]
      simp [mapKeys]
    exact ⟨hlen, by rw [hlen, hperm.length_eq], hkeys, cs, hcs, hf2⟩
  · rw [h] at hok
    simp at hok

theorem loadCertificateChains_issuerCerts_witness :
    ([some [48, 0], some [48, 1]] : List (Option Bytes)).length =
      (mapKeys [("http://ca.example/r3", ["a.pem", "b.pem"]),
        ("http://ca.example/x1", ["b.pem"])]).length ∧
    ([some [48, 0], some [48, 1]] : List (Option Bytes)).length =
      (mapKeys [("http://ca.example/r3", 10 :: samplePEM ++
          ascii "\n-----BEGIN CERTIFICATE-----\nMAE=\n-----END CERTIFICATE-----\n"),
        ("http://ca.example/x1",
          ascii "\n-----BEGIN CERTIFICATE-----\nMAE=\n-----END CERTIFICATE-----\n")]).length ∧
    (∀ k, k ∈ mapKeys [("http://ca.example/r3", 10 :: samplePEM ++
          ascii "\n-----BEGIN CERTIFICATE-----\nMAE=\n-----END CERTIFICATE-----\n"),
        ("http://ca.example/x1",
          ascii "\n-----BEGIN CERTIFICATE-----\nMAE=\n-----END CERTIFICATE-----\n")] ↔
      k ∈ mapKeys [("http://ca.example/r3", ["a.pem", "b.pem"]),
        ("http://ca.example/x1", ["b.pem"])]) ∧
    ∃ cs : List Bytes, [some [48, 0], some [48, 1]] = cs.map some ∧
      List.Forall₂ (fun e c => ∃ f more content blk, e.2 = f :: more ∧
        sampleWorld.ReadFile f = .ok content ∧ pem.Decode content = (some blk, []) ∧
        sampleWorld.ParseCertificate blk.bytes = .ok c)
        [("http://ca.example/r3", ["a.pem", "b.pem"]), ("http://ca.example/x1", ["b.pem"])] cs :=
  loadCertificateChains_issuerCerts sampleWorld
    [("http://ca.example/r3", ["a.pem", "b.pem"]), ("http://ca.example/x1", ["b.pem"])]
    [("http://ca.example/r3", 10 :: samplePEM ++
        ascii "\n-----BEGIN CERTIFICATE-----\nMAE=\n-----END CERTIFICATE-----\n"),
      ("http://ca.example/x1",
        ascii "\n-----BEGIN CERTIFICATE-----\nMAE=\n-----END CERTIFICATE-----\n")]
    [some [48, 0], some [48, 1]] (by decide) (by decide)

/-- C19: the index expression of line 169 is never out of range.  The call
never panics; a content in which pem.Decode finds a block is not empty, so its
last byte exists; pem.Decode finds no block in the empty content; and an empty
file is rejected with the error of line 137. -/
theorem loadCertificateFile_index_in_range {Cert : Type} (W : World Cert) (url file : String) :
    loadCertificateFile W url file ≠ .panic ∧
    (∀ content blk rest, pem.Decode content = (some blk, rest) →
      content ≠ [] ∧ ∃ last, content[content.length - 1]? = some last) ∧
    pem.Decode [] = (none, []) ∧
    (W.ReadFile file = .ok [] →
      loadCertificateFile W url file = .ret ⟨[], none, some (.notPEM url file)⟩) := by
  refine ⟨?_, ?_, pem.Decode_nil, ?_⟩
  · rw [loadCertificateFile_ret]
    simp
  · intro content blk rest hp
    have hne := pem.Decode_ne_nil hp
    obtain ⟨last, hidx, _⟩ := lastByte_cases content hne
    exact ⟨hne, last, hidx⟩
  · intro hread
    have hc : bytes.Contains [] (ascii "\r\n") = false := by decide
    simp [loadCertificateFile, hread, hc, pem.Decode_nil]

/-! ## errorWriter.Write -/

theorem ascii_lf : ascii "\n" = [10] := by decide

/-- What bytes.TrimRight cuts off with the cutset of one line feed: all the
line feeds at the end, and nothing else. -/
theorem bytes.TrimRight_lf (s : Bytes) :
    ∃ k, s = bytes.TrimRight s [10] ++ List.replicate k 10 ∧
      (bytes.TrimRight s [10]).getLast? ≠ some 10 := by
  have hall : ∀ x ∈ s.reverse.takeWhile (fun b => [10].contains b), x = 10 := by
    intro x hx
    have := List.mem_takeWhile_imp hx
    simpa using this
  obtain ⟨n, hn⟩ : ∃ n, s.reverse.takeWhile (fun b => [10].contains b) = List.replicate n 10 :=
    ⟨_, List.eq_replicate_of_mem hall⟩
  refine ⟨n, ?_, ?_⟩
  · have hsplit := List.takeWhile_append_dropWhile (fun b => [10].contains b) s.reverse
    have hrev := congrArg List.reverse hsplit
    rw [List.reverse_append, List.reverse_reverse, hn, List.reverse_replicate] at hrev
    unfold bytes.TrimRight
    exact hrev.symm
  · unfold bytes.TrimRight
    rw [List.getLast?_reverse]
    have := List.head?_dropWhile_not (fun b => [10].contains b) s.reverse
    intro h
    rw [h] at this
    simp at this

/-- C14: for every byte slice p, errorWriter.Write hands the logger exactly one
record, at error level, whose message is "net/http.Server: " followed by p
without the line feeds at its end; the bytes of p before them are kept as they
are, and the message does not end in a line feed. -/
theorem errorWriter_Write_logs (logger : List LogRecord) (p : Bytes) :
    ∃ body k, p = body ++ List.replicate k 10 ∧ body.getLast? ≠ some 10 ∧
      (errorWriter.Write logger p).logger =
        logger ++ [⟨.err, ascii "net/http.Server: " ++ body⟩] ∧
      (ascii "net/http.Server: " ++ body).getLast? ≠ some 10 := by
  obtain ⟨k, hk, hlast⟩ := bytes.TrimRight_lf p
  refine ⟨bytes.TrimRight p [10], k, hk, hlast, ?_, ?_⟩
  · simp [errorWriter.Write, Logger.Err, ascii_lf]
  · cases hb : bytes.TrimRight p [10] with
    | nil => decide
    | cons a t =>
      rw [hb] at hlast
      rw [List.getLast?_append]
      cases hl : (a :: t).getLast? with
      | none => simp at hl
      | some z =>
        rw [hl] at hlast
        simpa using hlast

/-- C18 fails on the code: errorWriter.Write returns n = 0 and a nil error for
every p, so for every non-empty p it returns fewer bytes than len(p) without
an error. -/
theorem errorWriter_Write_returns_zero (logger : List LogRecord) (p : Bytes) :
    (errorWriter.Write logger p).n = 0 ∧ (errorWriter.Write logger p).err = none ∧
      (p ≠ [] → (errorWriter.Write logger p).n ≠ (p.length : Int)) := by
  refine ⟨rfl, rfl, fun hne => ?_⟩
  have : p.length ≠ 0 := fun h => hne (List.length_eq_zero.mp h)
  simp only [errorWriter.Write]
  omega

/-! ## The listeners -/

/-- C17: with an empty TLSListenAddress main starts one goroutine only, the
one that calls ListenAndServe on the server bound to ListenAddress: no
goroutine calls ListenAndServeTLS and none can end the process with the
message of the TLS server.  With a non-empty TLSListenAddress it starts that
goroutine and then the one that calls ListenAndServeTLS with the configured
certificate and key.  Both servers have the one handler and the timeouts of
30, 120 and 120 seconds. -/
theorem startListeners_spec {H L : Type} (c : ListenConfig) (logger : L) (handler : H) :
    (c.TLSListenAddress = "" →
      startListeners c logger handler =
        [⟨.ListenAndServe (srv c logger handler), "Running HTTP server"⟩] ∧
      ∀ g ∈ startListeners c logger handler,
        (∀ s certFile keyFile, g.call ≠ .ListenAndServeTLS s certFile keyFile) ∧
        ∀ err d, g.finish err = some d → d.2 ≠ "Running TLS server") ∧
    (c.TLSListenAddress ≠ "" →
      startListeners c logger handler =
        [⟨.ListenAndServe (srv c logger handler), "Running HTTP server"⟩,
         ⟨.ListenAndServeTLS (tlsSrv c logger handler) c.ServerCertificatePath
            c.ServerKeyPath, "Running TLS server"⟩]) ∧
    (srv c logger handler).Addr = c.ListenAddress ∧
    (tlsSrv c logger handler).Addr = c.TLSListenAddress ∧
    (srv c logger handler).Handler = handler ∧
    (tlsSrv c logger handler).Handler = handler ∧
    (srv c logger handler).ReadTimeout = 30000000000 ∧
    (srv c logger handler).WriteTimeout = 120000000000 ∧
    (srv c logger handler).IdleTimeout = 120000000000 ∧
    (tlsSrv c logger handler).ReadTimeout = 30000000000 ∧
    (tlsSrv c logger handler).WriteTimeout = 120000000000 ∧
    (tlsSrv c logger handler).IdleTimeout = 120000000000 := by
  have hsec : time.Second = 1000000000 := rfl
  refine ⟨fun h => ?_, fun h => ?_, rfl, rfl, rfl, rfl, by simp [srv, hsec], by simp [srv, hsec],
    by simp [srv, hsec], by simp [tlsSrv, hsec], by simp [tlsSrv, hsec], by simp [tlsSrv, hsec]⟩
  · have hl : startListeners c logger handler =
        [⟨.ListenAndServe (srv c logger handler), "Running HTTP server"⟩] := by
      simp [startListeners, tlsSrv, h]
    refine ⟨hl, ?_⟩
    intro g hg
    rw [hl] at hg
    simp only [List.mem_singleton] at hg
    subst hg
    refine ⟨fun s certFile keyFile hc => (by cases hc), ?_⟩
    intro err d hd
    cases err with
    | none => simp [Goroutine.finish] at hd
    | some e =>
      cases e with
      | ErrServerClosed => simp [Goroutine.finish] at hd
      | other msg =>
        simp only [Goroutine.finish, Option.some.injEq] at hd
        rw [← hd]
        show "Running HTTP server" ≠ "Running TLS server"
        decide
  · simp [startListeners, tlsSrv, h]

/-! ## FeatureFlag.String -/

theorem digitChar_decimal (k : Nat) (hk : k < 10) :
    (Nat.digitChar k).isDigit = true ∧ (Nat.digitChar k).toNat - 48 = k ∧
      (k ≠ 0 → Nat.digitChar k ≠ '0') := by
  interval_cases k <;> decide

theorem decimalValue_append_singleton (xs : List Char) (d : Char) :
    decimalValue (xs ++ [d]) = 10 * decimalValue xs + (d.toNat - 48) := by
  simp [decimalValue, List.foldl_append]

/-- What Nat.repr writes in front of `ds`: the decimal digits of `n`, none
missing, the first one not 0 unless `n` is 0. -/
theorem toDigitsCore_decimal (fuel n : Nat) (ds : List Char) (h : n < fuel) :
    ∃ xs, Nat.toDigitsCore 10 fuel n ds = xs ++ ds ∧ xs ≠ [] ∧
      (∀ c ∈ xs, c.isDigit = true) ∧ decimalValue xs = n ∧
      (n ≠ 0 → xs.head? ≠ some '0') := by
  induction fuel generalizing n ds with
  | zero => omega
  | succ fuel ih =>
    obtain ⟨hdig, hval, hnz⟩ := digitChar_decimal (n % 10) (Nat.mod_lt n (by decide))
    rw [Nat.toDigitsCore]
    by_cases hq : n / 10 = 0
    · simp only [hq, if_true]
      have hn : n % 10 = n := Nat.mod_eq_of_lt (by omega)
      refine ⟨[Nat.digitChar (n % 10)], rfl, by simp, ?_, ?_, ?_⟩
      · intro c hc
        simp only [List.mem_singleton] at hc
        rw [hc]
        exact hdig
      · simp only [decimalValue, List.foldl_cons, List.foldl_nil, Nat.mul_zero, Nat.zero_add]
        rw [hval]
        exact hn
      · intro hn0
        simp only [List.head?_cons, ne_eq, Option.some.injEq]
        exact hnz (by omega)
    · simp only [hq, if_false]
      obtain ⟨xs, hxs, hne, hall, hv, hhead⟩ :=
        ih (n / 10) (Nat.digitChar (n % 10) :: ds) (by omega)
      refine ⟨xs ++ [Nat.digitChar (n % 10)], by rw [hxs]; simp, by simp, ?_, ?_, ?_⟩
      · intro c hc
        rcases List.mem_append.mp hc with hc | hc
        · exact hall c hc
        · simp only [List.mem_singleton] at hc
          rw [hc]
          exact hdig
      · rw [decimalValue_append_singleton, hv, hval]
        omega
      · intro _
        obtain ⟨a, t, rfl⟩ := List.exists_cons_of_ne_nil hne
        simpa using hhead hq

/-- The decimal digits that strconv.FormatInt writes: after a minus sign for a
negative value, the digits of the absolute value. -/
theorem features.FormatInt10_decimal (i : Int) :
    ∃ ds : List Char,
      features.FormatInt10 i = String.mk ((if i < 0 then ['-'] else []) ++ ds) ∧
      ds ≠ [] ∧ (∀ c ∈ ds, c.isDigit = true) ∧ decimalValue ds = i.natAbs ∧
      (i ≠ 0 → ds.head? ≠ some '0') := by
  obtain ⟨xs, hxs, hne, hall, hv, hhead⟩ :=
    toDigitsCore_decimal (i.natAbs + 1) i.natAbs [] (by omega)
  rw [List.append_nil] at hxs
  have hrepr : Nat.repr i.natAbs = String.mk xs := by
    simp [Nat.repr, Nat.toDigits, hxs, List.asString]
  refine ⟨xs, ?_, hne, hall, hv, fun hi => hhead (by omega)⟩
  unfold features.FormatInt10
  by_cases hneg : i < 0
  · simp only [hneg, if_true, hrepr]
    rfl
  · simp only [hneg, if_false, hrepr, List.nil_append]

theorem features.index_length : features._FeatureFlag_index.length = 18 := by decide

/-- C20: the table _FeatureFlag_index rises strictly from 0 to the length of
_FeatureFlag_name; the constants have the values 0 to 16; String returns, for
each constant, its identifier, which is not empty, without going out of range,
so it does for every value from 0 to 16; constants with different values have
different identifiers; and for every value below 0 or above 16 String returns
"FeatureFlag(", the decimal digits of the value and ")": a minus sign for a
negative value, then digits that write its absolute value, the first of them
not 0.  So 17 gives "FeatureFlag(17)" and -1 gives "FeatureFlag(-1)". -/
theorem features.FeatureFlag_String_exact :
    List.Pairwise (fun a b => a < b) features._FeatureFlag_index ∧
    features._FeatureFlag_index.head? = some 0 ∧
    features._FeatureFlag_index.getLast? = some features._FeatureFlag_name.length ∧
    features.constants.map Prod.snd = (List.range 17).map Int.ofNat ∧
    (∀ e ∈ features.constants, features.FeatureFlag.String e.2 = .ret e.1 ∧ e.1 ≠ "") ∧
    (∀ i : Int, 0 ≤ i → i ≤ 16 →
      ∃ e ∈ features.constants, e.2 = i ∧ features.FeatureFlag.String i = .ret e.1) ∧
    (∀ i j : Int, 0 ≤ i → i ≤ 16 → 0 ≤ j → j ≤ 16 →
      features.FeatureFlag.String i = features.FeatureFlag.String j → i = j) ∧
    (∀ i : Int, i < 0 ∨ 16 < i →
      features.FeatureFlag.String i =
        .ret ("FeatureFlag(" ++ features.FormatInt10 i ++ ")")) ∧
    (∀ i : Int, i < 0 ∨ 16 < i →
      ∃ ds : List Char,
        features.FeatureFlag.String i =
          .ret ("FeatureFlag(" ++ String.mk ((if i < 0 then ['-'] else []) ++ ds) ++ ")") ∧
        ds ≠ [] ∧ (∀ c ∈ ds, c.isDigit = true) ∧ decimalValue ds = i.natAbs ∧
        ds.head? ≠ some '0') ∧
    features.FeatureFlag.String 17 = .ret "FeatureFlag(17)" ∧
    features.FeatureFlag.String (-1) = .ret "FeatureFlag(-1)" ∧
    features.FeatureFlag.String 1000 = .ret "FeatureFlag(1000)" ∧
    features.FeatureFlag.String 9223372036854775807 =
      .ret "FeatureFlag(9223372036854775807)" ∧
    features.FeatureFlag.String (-9223372036854775808) =
      .ret "FeatureFlag(-9223372036854775808)" := by
  have hmem : ∀ i : Int, 0 ≤ i → i ≤ 16 →
      ∃ e ∈ features.constants, e.2 = i ∧ features.FeatureFlag.String i = .ret e.1 := by
    intro i h0 h16
    obtain ⟨n, rfl⟩ := Int.eq_ofNat_of_zero_le h0
    have hn : n ≤ 16 := by omega
    interval_cases n <;> decide!
  have hinj : ∀ e ∈ features.constants, ∀ e2 ∈ features.constants, e.1 = e2.1 → e.2 = e2.2 := by
    decide!
  have hout : ∀ i : Int, i < 0 ∨ 16 < i →
      features.FeatureFlag.String i =
        .ret ("FeatureFlag(" ++ features.FormatInt10 i ++ ")") := by
    intro i hi
    unfold features.FeatureFlag.String
    rw [features.index_length]
    have hc : i < 0 ∨ i ≥ ((18 : Nat) : Int) - 1 := by omega
    rw [if_pos hc]
  refine ⟨by decide, by decide, by decide!, by decide, by decide!, hmem, ?_, hout, ?_,
    by decide!, by decide!, by decide!, by decide!, by decide!⟩
  · intro i j hi0 hi16 hj0 hj16 heq
    obtain ⟨e, he, hei, hsi⟩ := hmem i hi0 hi16
    obtain ⟨e2, he2, hej, hsj⟩ := hmem j hj0 hj16
    rw [hsi, hsj] at heq
    simp only [Call.ret.injEq] at heq
    rw [← hei, ← hej]
    exact hinj e he e2 he2 heq
  · intro i hi
    obtain ⟨ds, hds, hne, hall, hv, hhead⟩ := features.FormatInt10_decimal i
    exact ⟨ds, by rw [hout i hi, hds], hne, hall, hv, hhead (by omega)⟩

/-! ## The shutdown -/

theorem shutdownInv_init (c : ListenConfig) : ShutdownInv c ShutdownState.init := by
  simp [ShutdownInv, ShutdownState.init]

/-- Every step of either thread keeps the invariant. -/
theorem shutdownInv_step (c : ListenConfig) (t : Thread) (s : ShutdownState)
    (h : ShutdownInv c s) : ShutdownInv c (step c t s) := by
  obtain ⟨m, hd, ctx, tr⟩ := s
  cases t <;> cases hd <;> cases m <;>
    simp_all [ShutdownInv, step, stepMain, stepHandler, eventsUpToSend, allEvents]

theorem shutdownInv_run (c : ListenConfig) (sched : List Thread) (s : ShutdownState)
    (h : ShutdownInv c s) : ShutdownInv c (run c sched s) := by
  induction sched generalizing s with
  | nil => exact h
  | cons t sched ih => exact ih _ (shutdownInv_step c t s h)

/-- The events of a state that satisfies the invariant open one of the two
complete sequences. -/
theorem shutdownInv_events (c : ListenConfig) (s : ShutdownState) (h : ShutdownInv c s) :
    s.trace <+: allEvents c true ∨ s.trace <+: allEvents c false := by
  obtain ⟨m, hd, ctx, tr⟩ := s
  cases hd <;> simp only [ShutdownInv] at h
  · left; rw [h.2.2]; exact List.nil_prefix
  · left; rw [h.2.2]; exact ⟨_, rfl⟩
  · left; rw [h.2.2]; exact ⟨_, rfl⟩
  · left; rw [h.2.2]; exact ⟨_, rfl⟩
  · left; rw [h.2.2]; exact ⟨_, rfl⟩
  · left; rw [h.2.2]; exact ⟨_, rfl⟩
  · left; rw [h.2.2]; exact ⟨_, rfl⟩
  · rcases h with ⟨_, h⟩ | ⟨_, h⟩
    · left; rw [h]; exact ⟨_, rfl⟩
    · right; rw [h]; exact ⟨_, rfl⟩
  · rcases h with ⟨_, h⟩ | ⟨_, h | h⟩
    · left; rw [h]; exact ⟨_, rfl⟩
    · left; rw [h]
    · right; rw [h]

/-- Main has returned only in states whose events hold the send on `done`. -/
theorem shutdownInv_returned (c : ListenConfig) (s : ShutdownState) (h : ShutdownInv c s)
    (hm : s.main = .returned) : Event.doneSent ∈ s.trace := by
  obtain ⟨m, hd, ctx, tr⟩ := s
  simp only at hm
  subst hm
  cases hd <;> simp only [ShutdownInv] at h
  · rcases h.1 with h1 | h1 <;> cases h1
  · rcases h.1 with h1 | h1 <;> cases h1
  · rcases h.1 with h1 | h1 <;> cases h1
  · rcases h.1 with h1 | h1 <;> cases h1
  · rcases h.1 with h1 | h1 <;> cases h1
  · rcases h.1 with h1 | h1 <;> cases h1
  · rcases h.1 with h1 | h1 <;> cases h1
  · rcases h with ⟨h1, _⟩ | ⟨_, h⟩
    · cases h1
    · simp [h, eventsUpToSend]
  · rcases h with ⟨h1, _⟩ | ⟨_, h | h⟩
    · cases h1
    · simp [h, eventsUpToSend, allEvents]
    · simp [h, eventsUpToSend, allEvents]

/-- The check `precededFrom` says what `Precedes` says. -/
theorem precededFrom_iff (a b : Event → Bool) (seen : Bool) (t : List Event) :
    precededFrom a b seen t = true ↔
      ∀ pre e post, t = pre ++ e :: post → b e = true →
        seen = true ∨ ∃ x ∈ pre, a x = true := by
  induction t generalizing seen with
  | nil =>
    simp only [precededFrom, true_iff]
    intro pre e post h
    cases pre <;> cases h
  | cons hd t ih =>
    rw [precededFrom, Bool.and_eq_true, ih]
    constructor
    · rintro ⟨h1, h2⟩ pre e post hdec hb
      cases pre with
      | nil =>
        simp only [List.nil_append, List.cons.injEq] at hdec
        rw [← hdec.1] at hb
        simp only [Bool.or_eq_true, Bool.not_eq_true', hb] at h1
        left
        simpa using h1
      | cons p pre1 =>
        simp only [List.cons_append, List.cons.injEq] at hdec
        obtain ⟨rfl, hdec⟩ := hdec
        rcases h2 pre1 e post hdec hb with h3 | ⟨x, hx, hax⟩
        · simp only [Bool.or_eq_true] at h3
          rcases h3 with h3 | h3
          · exact Or.inl h3
          · exact Or.inr ⟨hd, by simp, h3⟩
        · exact Or.inr ⟨x, by simp [hx], hax⟩
    · intro h
      constructor
      · cases hb : b hd with
        | false => simp
        | true =>
          rcases h [] hd t rfl hb with h3 | ⟨x, hx, _⟩
          · simp [h3]
          · cases hx
      · intro pre e post hdec hb
        rcases h (hd :: pre) e post (by rw [hdec]; rfl) hb with h3 | ⟨x, hx, hax⟩
        · left; simp [h3]
        · rcases List.mem_cons.mp hx with rfl | hx
          · left; simp [hax]
          · exact Or.inr ⟨x, hx, hax⟩

theorem precededBy_iff (a b : Event → Bool) (t : List Event) :
    precededBy a b t = true ↔ Precedes a b t := by
  unfold precededBy Precedes
  rw [precededFrom_iff]
  simp

/-- What precedes what in a sequence of events does so in every sequence that
opens it. -/
theorem Precedes_of_prefix (a b : Event → Bool) (t full : List Event)
    (hp : t <+: full) (h : Precedes a b full) : Precedes a b t := by
  obtain ⟨r, rfl⟩ := hp
  intro pre e post hdec hb
  exact h pre e (post ++ r) (by rw [hdec]; simp) hb

/-- The order of the events in the two complete sequences. -/
theorem Precedes_allEvents (c : ListenConfig) (cancelFirst : Bool) :
    Precedes (Event.is (.shutdownReturned .plain)) (Event.is .doneSent) (allEvents c cancelFirst) ∧
    Precedes (Event.is (.shutdownReturned .tls)) (Event.is .doneSent) (allEvents c cancelFirst) ∧
    Precedes (Event.isCall .plain) (Event.is (.shutdownReturned .plain))
      (allEvents c cancelFirst) ∧
    Precedes (Event.isCall .tls) (Event.is (.shutdownReturned .tls)) (allEvents c cancelFirst) ∧
    Precedes Event.isWithTimeout (Event.isCall .plain) (allEvents c cancelFirst) ∧
    Precedes Event.isWithTimeout (Event.isCall .tls) (allEvents c cancelFirst) ∧
    Precedes (Event.is .doneSent) (Event.is .mainReturned) (allEvents c cancelFirst) ∧
    Precedes (Event.is (.shutdownReturned .plain)) (Event.isCall .tls)
      (allEvents c cancelFirst) := by
  simp only [← precededBy_iff]
  cases cancelFirst <;>
    simp [precededBy, precededFrom, allEvents, eventsUpToSend, Event.is, Event.isCall,
      Event.isWithTimeout]

/-- The events of every run open one of the two complete sequences. -/
theorem shutdownTrace_events (c : ListenConfig) (sched : List Thread) :
    shutdownTrace c sched <+: allEvents c true ∨ shutdownTrace c sched <+: allEvents c false :=
  shutdownInv_events c _ (shutdownInv_run c sched _ (shutdownInv_init c))

/-- Whatever holds of the order of both complete sequences holds of every run. -/
theorem Precedes_shutdownTrace (c : ListenConfig) (sched : List Thread) (a b : Event → Bool)
    (h : ∀ cancelFirst, Precedes a b (allEvents c cancelFirst)) :
    Precedes a b (shutdownTrace c sched) := by
  rcases shutdownTrace_events c sched with hp | hp
  · exact Precedes_of_prefix a b _ _ hp (h true)
  · exact Precedes_of_prefix a b _ _ hp (h false)

/-- Every call of Shutdown in a run is given the context made at line 390,
and that context has been made. -/
theorem shutdownCalled_ctx (c : ListenConfig) (sched : List Thread) (l : Listener)
    (ctx : Context) (h : Event.shutdownCalled l ctx ∈ shutdownTrace c sched) :
    ctx = ⟨c.ShutdownStopTimeout⟩ ∧ Event.withTimeout ctx ∈ shutdownTrace c sched := by
  have hctx : ctx = ⟨c.ShutdownStopTimeout⟩ := by
    rcases shutdownTrace_events c sched with hp | hp <;>
      · have hm := hp.subset h
        simp [allEvents, eventsUpToSend] at hm
        rcases hm with ⟨_, hm⟩ | ⟨_, hm⟩ <;> exact hm
  refine ⟨hctx, ?_⟩
  obtain ⟨pre, post, hdec⟩ := List.append_of_mem h
  have hw : Precedes Event.isWithTimeout (Event.isCall l) (shutdownTrace c sched) := by
    cases l
    · exact Precedes_shutdownTrace c sched _ _ (fun b => (Precedes_allEvents c b).2.2.2.2.1)
    · exact Precedes_shutdownTrace c sched _ _ (fun b => (Precedes_allEvents c b).2.2.2.2.2.1)
  obtain ⟨x, hx, hax⟩ := hw pre _ post hdec (by simp [Event.isCall])
  have hxm : x ∈ shutdownTrace c sched := by
    rw [hdec]
    exact List.mem_append_left _ hx
  have hxe : x = Event.withTimeout ⟨c.ShutdownStopTimeout⟩ := by
    rcases shutdownTrace_events c sched with hp | hp <;>
      · have hm := hp.subset hxm
        simp only [allEvents, eventsUpToSend] at hm
        cases x <;> simp_all [Event.isWithTimeout]
  rw [hctx, ← hxe]
  exact hxm

/-- In every run Shutdown is called on the TLS server only after Shutdown on
the plaintext server has returned. -/
theorem shutdownTrace_sequential (c : ListenConfig) (sched : List Thread) :
    Precedes (Event.is (.shutdownReturned .plain)) (Event.isCall .tls)
      (shutdownTrace c sched) :=
  Precedes_shutdownTrace c sched _ _ (fun b => (Precedes_allEvents c b).2.2.2.2.2.2.2)

/-- C15: in every run of the shutdown, under every schedule, `true` passes
through `done` only after Shutdown on the plaintext server and Shutdown on the
TLS server have returned, each after it was called; every call of Shutdown is
given the one context made with the configured ShutdownStopTimeout, and no
other context is made; main returns only after `true` has passed through
`done`. -/
theorem shutdown_done_after_both (c : ListenConfig) (sched : List Thread) :
    Precedes (Event.is (.shutdownReturned .plain)) (Event.is .doneSent)
      (shutdownTrace c sched) ∧
    Precedes (Event.is (.shutdownReturned .tls)) (Event.is .doneSent)
      (shutdownTrace c sched) ∧
    Precedes (Event.isCall .plain) (Event.is (.shutdownReturned .plain))
      (shutdownTrace c sched) ∧
    Precedes (Event.isCall .tls) (Event.is (.shutdownReturned .tls))
      (shutdownTrace c sched) ∧
    (∀ l ctx, Event.shutdownCalled l ctx ∈ shutdownTrace c sched →
      ctx = ⟨c.ShutdownStopTimeout⟩ ∧ Event.withTimeout ctx ∈ shutdownTrace c sched) ∧
    (shutdownTrace c sched).countP Event.isWithTimeout ≤ 1 ∧
    Precedes (Event.is .doneSent) (Event.is .mainReturned) (shutdownTrace c sched) ∧
    ((run c sched ShutdownState.init).main = .returned →
      Event.doneSent ∈ shutdownTrace c sched) := by
  refine ⟨Precedes_shutdownTrace c sched _ _ (fun b => (Precedes_allEvents c b).1),
    Precedes_shutdownTrace c sched _ _ (fun b => (Precedes_allEvents c b).2.1),
    Precedes_shutdownTrace c sched _ _ (fun b => (Precedes_allEvents c b).2.2.1),
    Precedes_shutdownTrace c sched _ _ (fun b => (Precedes_allEvents c b).2.2.2.1),
    fun l ctx h => shutdownCalled_ctx c sched l ctx h, ?_,
    Precedes_shutdownTrace c sched _ _ (fun b => (Precedes_allEvents c b).2.2.2.2.2.2.1),
    fun hm => shutdownInv_returned c _ (shutdownInv_run c sched _ (shutdownInv_init c)) hm⟩
  rcases shutdownTrace_events c sched with hp | hp
  · have h1 := hp.sublist.countP_le Event.isWithTimeout
    have h2 : (allEvents c true).countP Event.isWithTimeout = 1 := by
      simp [allEvents, eventsUpToSend, Event.isWithTimeout, List.countP_cons]
    omega
  · have h1 := hp.sublist.countP_le Event.isWithTimeout
    have h2 : (allEvents c false).countP Event.isWithTimeout = 1 := by
      simp [allEvents, eventsUpToSend, Event.isWithTimeout, List.countP_cons]
    omega

/-- C16, as stated, fails: with the sample configuration the run in which the
goroutine of the signal takes five steps calls Shutdown on the TLS server as
its fifth event, after the return of Shutdown on the plaintext server, and
under no schedule is the call issued without waiting for that return. -/
theorem shutdown_sample_not_concurrent :
    shutdownTrace sampleListen [.handler, .handler, .handler, .handler, .handler] =
      [.signal, .withTimeout ⟨10000000000⟩, .shutdownCalled .plain ⟨10000000000⟩,
       .shutdownReturned .plain, .shutdownCalled .tls ⟨10000000000⟩] ∧
    ¬ ∃ sched, issuedWithoutWaiting (shutdownTrace sampleListen sched) = true := by
  refine ⟨by decide, ?_⟩
  rintro ⟨sched, h⟩
  have hs := (precededBy_iff _ _ _).mpr (shutdownTrace_sequential sampleListen sched)
  simp [issuedWithoutWaiting, hs] at h

/-- In every run at most one context is made. -/
theorem shutdownTrace_one_context (c : ListenConfig) (sched : List Thread) :
    (shutdownTrace c sched).countP Event.isWithTimeout ≤ 1 := by
  rcases shutdownTrace_events c sched with hp | hp
  · have h1 := hp.sublist.countP_le Event.isWithTimeout
    have h2 : (allEvents c true).countP Event.isWithTimeout = 1 := by
      simp [allEvents, eventsUpToSend, Event.isWithTimeout, List.countP_cons]
    omega
  · have h1 := hp.sublist.countP_le Event.isWithTimeout
    have h2 : (allEvents c false).countP Event.isWithTimeout = 1 := by
      simp [allEvents, eventsUpToSend, Event.isWithTimeout, List.countP_cons]
    omega

/-- C16, amended: on shutdown the two listeners are drained one after the
other.  In every run, under every schedule, Shutdown is called on the TLS
server only after Shutdown on the plaintext server has returned, never without
waiting for it.  Both calls are given the same context: at most one context is
made in a run, each call of Shutdown comes after it was made and is given that
context, and its timeout is the configured ShutdownStopTimeout; so the one
deadline bounds the two drains together. -/
theorem shutdown_sequential (c : ListenConfig) (sched : List Thread) :
    Precedes (Event.is (.shutdownReturned .plain)) (Event.isCall .tls)
      (shutdownTrace c sched) ∧
    issuedWithoutWaiting (shutdownTrace c sched) = false ∧
    (∀ l ctx, Event.shutdownCalled l ctx ∈ shutdownTrace c sched →
      ctx = ⟨c.ShutdownStopTimeout⟩) ∧
    (shutdownTrace c sched).countP Event.isWithTimeout ≤ 1 ∧
    (∀ l ctx, Event.shutdownCalled l ctx ∈ shutdownTrace c sched →
      Event.withTimeout ctx ∈ shutdownTrace c sched) ∧
    Precedes Event.isWithTimeout (Event.isCall .plain) (shutdownTrace c sched) ∧
    Precedes Event.isWithTimeout (Event.isCall .tls) (shutdownTrace c sched) ∧
    (∀ ctx1 ctx2, Event.shutdownCalled .plain ctx1 ∈ shutdownTrace c sched →
      Event.shutdownCalled .tls ctx2 ∈ shutdownTrace c sched → ctx1 = ctx2) := by
  refine ⟨shutdownTrace_sequential c sched, ?_,
    fun l ctx h => (shutdownCalled_ctx c sched l ctx h).1,
    shutdownTrace_one_context c sched,
    fun l ctx h => (shutdownCalled_ctx c sched l ctx h).2,
    Precedes_shutdownTrace c sched _ _ (fun b => (Precedes_allEvents c b).2.2.2.2.1),
    Precedes_shutdownTrace c sched _ _ (fun b => (Precedes_allEvents c b).2.2.2.2.2.1),
    fun ctx1 ctx2 h1 h2 => ?_⟩
  · have hs := (precededBy_iff _ _ _).mpr (shutdownTrace_sequential c sched)
    simp [issuedWithoutWaiting, hs]
  · rw [(shutdownCalled_ctx c sched _ ctx1 h1).1, (shutdownCalled_ctx c sched _ ctx2 h2).1]

end Boulder
